import Mathlib

/-!
Verification of the boon event-sourced project domain.

This file is a shallow embedding of the repository's domain code (calendar
engine, part lifecycle state machine, event stores, pace and progress
projections) together with proofs of the specification claims about it.

Modelling conventions:
* JavaScript strings are embedded as lists of characters (`Str`).
* JavaScript numbers appearing as integers are embedded as `Int` or `Nat`;
  NaN is modelled by `Option` (`none` = NaN).  `Number(s)` is modelled on the
  dash-free strings that occur in this code base (decimal digit strings and
  the empty string).
* Dates are modelled with exact Gregorian arithmetic on day numbers counted
  from 1970-01-01 (the JS epoch), restricted to years from 1970 on; an input
  falling outside the modelled domain is mapped to `none`.
* A timezone (an IANA name in the source) is modelled by its UTC-offset
  function, mapping an epoch-milliseconds instant to an offset in
  milliseconds; `UTC` is the constant-zero function.
* Source `while` loops that can diverge are embedded as fuel-indexed
  recursions returning `FRes`: `ok` a value, `err` a thrown exception, or
  `spin` when the fuel is exhausted (divergence = `spin` for every fuel).
-/

set_option maxRecDepth 4000

namespace Boon

/-- Embedded JavaScript string: a list of characters. -/
abbrev Str := List Char

/-- Conversion from a Lean string literal to the embedded string type. -/
def dk (s : String) : Str := s.data

/-- JavaScript string comparison: lexicographic on code units. -/
def strLt : Str → Str → Bool
  | [], [] => false
  | [], _ :: _ => true
  | _ :: _, [] => false
  | a :: as, b :: bs =>
    if a.toNat < b.toNat then true
    else if b.toNat < a.toNat then false
    else strLt as bs

/-- JavaScript string comparison a <= b, which is the negation of b < a. -/
def strLe (a b : Str) : Bool := !(strLt b a)

/-- Decimal digit character (for n < 10). -/
def digitChar (n : Nat) : Char := Char.ofNat (48 + n)

/-- Numeric value of a digit character. -/
def digitVal (c : Char) : Nat := c.toNat - 48

/-- Whether a character is a decimal digit. -/
def isDigitCh (c : Char) : Bool := decide (48 ≤ c.toNat) && decide (c.toNat ≤ 57)

/-- Structural helper for natDigits; the fuel bounds the recursion depth
(n itself is always enough). -/
def natDigitsGo : Nat → Nat → Str
  | 0, n => [digitChar n]
  | fuel + 1, n =>
    if n < 10 then [digitChar n]
    else natDigitsGo fuel (n / 10) ++ [digitChar (n % 10)]

/-- Decimal digits of a natural number, most significant first;
models the JS String() conversion of a nonnegative integer. -/
def natDigits (n : Nat) : Str := natDigitsGo n n

/-- Value of a most-significant-first digit string. -/
def digitsToNat : Str → Nat
  | [] => 0
  | c :: cs => digitVal c * 10 ^ cs.length + digitsToNat cs

/-- Left-pad with zero characters to width w; models String.padStart(w, "0"). -/
def padZeros (w : Nat) (s : Str) : Str := List.replicate (w - s.length) '0' ++ s

/-- Four-digit zero-padded decimal (year field of a DateKey). -/
def pad4 (n : Nat) : Str := padZeros 4 (natDigits n)

/-- Two-digit zero-padded decimal (month/day field of a DateKey). -/
def pad2 (n : Nat) : Str := padZeros 2 (natDigits n)

/-- JS String.prototype.split("-") on the embedded strings. -/
def splitDash : Str → List Str
  | [] => [[]]
  | c :: cs =>
    if c = '-' then [] :: splitDash cs
    else
      match splitDash cs with
      | [] => [[c]]
      | p :: ps => (c :: p) :: ps

/-- JS Number() conversion, modelled on the dash-free strings produced by
split in this code base: the empty string is 0, a digit string is its value,
anything else is NaN (`none`). -/
def jsNumber (s : Str) : Option Int :=
  if s.isEmpty then some 0
  else if s.all isDigitCh then some (digitsToNat s : Int) else none

/-- JS Number() of a possibly-missing split component (undefined is NaN). -/
def jsNumberAt (parts : List Str) (i : Nat) : Option Int :=
  match parts[i]? with
  | none => none
  | some p => jsNumber p

/-- calendar.ts parseDateKey: split on "-" and convert the first three
components with Number(); a NaN component is `none`. -/
def parseDateKey (s : Str) : Option Int × Option Int × Option Int :=
  let parts := splitDash s
  (jsNumberAt parts 0, jsNumberAt parts 1, jsNumberAt parts 2)

/-! ## Gregorian day arithmetic (the JS Date model)

Day numbers count days from 1970-01-01 (day 0). -/

/-- Gregorian leap-year predicate. -/
def isLeap (y : Nat) : Bool := y % 4 == 0 && (y % 100 != 0 || y % 400 == 0)

/-- Length of month m (1-12) of year y. -/
def monthLen (y m : Nat) : Nat :=
  match m with
  | 1 => 31 | 2 => if isLeap y then 29 else 28 | 3 => 31 | 4 => 30
  | 5 => 31 | 6 => 30 | 7 => 31 | 8 => 31 | 9 => 30 | 10 => 31
  | 11 => 30 | 12 => 31
  | _ => 0

/-- Length of year y in days. -/
def yearLen (y : Nat) : Nat := if isLeap y then 366 else 365

/-- Sum of the lengths of the k years starting at 1970. -/
def daysSinceEpochYear : Nat → Nat
  | 0 => 0
  | k + 1 => daysSinceEpochYear k + yearLen (1970 + k)

/-- Days from 1970-01-01 to the first day of year y (for y at or past 1970). -/
def daysBeforeYear (y : Nat) : Nat := daysSinceEpochYear (y - 1970)

/-- Days from the first day of year y to the first day of month m. -/
def daysBeforeMonth (y : Nat) : Nat → Nat
  | 0 => 0
  | 1 => 0
  | m + 1 => daysBeforeMonth y m + monthLen y m

/-- Day number of a civil date (y, m, d), y at or past 1970, m in 1-12.
The day component enters linearly, which also matches the JS Date overflow
behaviour for d past the month length. -/
def dayNumber (y m d : Nat) : Nat := daysBeforeYear y + daysBeforeMonth y m + (d - 1)

/-- Month phase of the day-number-to-civil conversion; fuel counts the
remaining months to inspect. -/
def cfdMonthF : Nat → Nat → Nat → Nat → Nat × Nat × Nat
  | 0, y, m, n => (y, m, n + 1)
  | k + 1, y, m, n =>
    if n < monthLen y m then (y, m, n + 1)
    else cfdMonthF k y (m + 1) (n - monthLen y m)

/-- Structural helper for the year phase of the day-number-to-civil
conversion; the fuel bounds the number of year steps (n is always enough,
since every step removes at least 365 days). -/
def cfdYearGo : Nat → Nat → Nat → Nat × Nat × Nat
  | 0, y, n => cfdMonthF 11 y 1 n
  | fuel + 1, y, n =>
    if n < yearLen y then cfdMonthF 11 y 1 n
    else cfdYearGo fuel (y + 1) (n - yearLen y)

/-- Year phase of the day-number-to-civil conversion. -/
def cfdYear (y n : Nat) : Nat × Nat × Nat := cfdYearGo n y n

/-- Civil date (y, m, d) of a day number (days since 1970-01-01). -/
def civilFromDays (n : Nat) : Nat × Nat × Nat := cfdYear 1970 n

/-- Weekday (0 = Sunday .. 6 = Saturday) of a day number; day 0 (1970-01-01)
was a Thursday. -/
def weekdayOfDays (n : Nat) : Nat := (n + 4) % 7

/-- calendar.ts formatDateKey: zero-padded "YYYY-MM-DD". -/
def formatDateKey (y m d : Nat) : Str := pad4 y ++ '-' :: (pad2 m ++ '-' :: pad2 d)

/-- Validity of a civil triple within the modelled domain. -/
def ValidT (t : Nat × Nat × Nat) : Prop :=
  1970 ≤ t.1 ∧ 1 ≤ t.2.1 ∧ t.2.1 ≤ 12 ∧ 1 ≤ t.2.2 ∧ t.2.2 ≤ monthLen t.1 t.2.1

instance (t : Nat × Nat × Nat) : Decidable (ValidT t) := by
  unfold ValidT; infer_instance

/-- JS Date.UTC(y, m0, d) (month 0-based, arbitrary month overflow), as a
day number; `none` when the normalized date falls before 1970 or the day
component is below 1 (outside the modelled domain). -/
def jsDateUTCdays (y m0 d : Int) : Option Nat :=
  let y' := y + m0.fdiv 12
  let m' := m0.emod 12
  if y' < 1970 ∨ d < 1 then none
  else some (dayNumber y'.toNat (m'.toNat + 1) d.toNat)

/-! ## Embedding of src/domain/calendar.ts -/

/-- Canonical string form of a civil triple. -/
def canon (t : Nat × Nat × Nat) : Str := formatDateKey t.1 t.2.1 t.2.2

/-- calendar.ts nextDay: parse, go to noon UTC of that date, add one day,
format.  The noon offset has no effect on the day number. -/
def nextDay (date : Str) : Option Str :=
  match parseDateKey date with
  | (some y, some m, some d) =>
    match jsDateUTCdays y (m - 1) d with
    | none => none
    | some n => some (canon (civilFromDays (n + 1)))
  | _ => none

/-- Result of a fuel-indexed embedding of a source loop: a value, a thrown
exception, or exhausted fuel (divergence is spin at every fuel). -/
inductive FRes (α : Type) where
  | ok (a : α)
  | err
  | spin
deriving DecidableEq, Repr

/-- calendar.ts CalendarOverride. -/
structure CalendarOverride where
  id : Str
  date : Str
  isWorkingDay : Bool
  label : Str
  note : Option Str := none

/-- calendar.ts ProjectCalendar, with the timezone name replaced by its
UTC-offset function (epoch ms to offset ms). -/
structure ProjectCalendar where
  timezone : Int → Int
  weekendDays : List Nat
  overrides : List CalendarOverride

/-- The UTC timezone: offset constantly zero. -/
def utcTz : Int → Int := fun _ => 0

/-- calendar.ts overridesIndex followed by Map.get: the map is built by
insertion in list order, so the last override for a date wins. -/
def findOverride (os : List CalendarOverride) (date : Str) : Option CalendarOverride :=
  os.foldl (fun acc o => if o.date = date then some o else acc) none

/-- Date.prototype.toISOString().slice(0, 10) of a day number: "YYYY-MM-DD"
for four-digit years, and the ten-character head "+0YYYYY-MM" of the
expanded-year ISO form for larger years (as JS produces). -/
def toKeyUTC (n : Nat) : Str :=
  let c := civilFromDays n
  if c.1 ≤ 9999 then formatDateKey c.1 c.2.1 c.2.2
  else '+' :: (padZeros 6 (natDigits c.1) ++ '-' :: pad2 c.2.1)

/-- Meeus/Jones/Butcher Gregorian Easter (calendar.ts easterSundayUTC),
returning the month (3 or 4) and day.  All divisions/remainders in the
source act on nonnegative values, where Math.floor division and the JS %
agree with Euclidean division. -/
def easterMonthDay (y : Nat) : Int × Int :=
  let yi : Int := y
  let a := yi.emod 19
  let b := yi.ediv 100
  let c := yi.emod 100
  let d := b.ediv 4
  let e := b.emod 4
  let f := (b + 8).ediv 25
  let g := (b - f + 1).ediv 3
  let h := (19 * a + b - d - g + 15).emod 30
  let i := c.ediv 4
  let k := c.emod 4
  let l := (32 + 2 * e + 2 * i - h - k).emod 7
  let m := (a + 11 * h + 22 * l).ediv 451
  let month := (h + l - 7 * m + 114).ediv 31
  let day := (h + l - 7 * m + 114).emod 31 + 1
  (month, day)

/-- Day number of Easter Sunday (calendar.ts easterSundayUTC as a Date). -/
def easterDayNumE (y : Nat) : Option Nat :=
  let md := easterMonthDay y
  jsDateUTCdays (y : Int) (md.1 - 1) md.2

/-- calendar.ts saturdayBetweenUTC: first Saturday with day in [d1, d2] of
month m, as an ISO key; `none` models the thrown error when there is none. -/
def saturdayBetweenUTC (y m d1 d2 : Nat) : Option Str :=
  match (List.range' d1 (d2 + 1 - d1)).find?
      (fun d => weekdayOfDays (dayNumber y m d) == 6) with
  | none => none
  | some d => some (toKeyUTC (dayNumber y m d))

/-- calendar.ts swedishHolidays for a year at or past 1970; the Set is
modelled as the list of inserted keys (membership is all that is used). -/
def swedishHolidaysE (y : Nat) : Option (List Str) :=
  match easterDayNumE y with
  | none => none
  | some eDN =>
    let fixed := [dk ("01-01"), dk ("01-06"), dk ("05-01"), dk ("06-06"),
      dk ("12-25"), dk ("12-26")].map (fun md => natDigits y ++ '-' :: md)
    let easterBased := [eDN - 2, eDN, eDN + 1, eDN + 39, eDN + 49].map toKeyUTC
    match saturdayBetweenUTC y 6 20 26 with
    | none => none
    | some mid =>
      let oct :=
        if weekdayOfDays (dayNumber y 10 31) = 6 then [natDigits y ++ dk ("-10-31")] else []
      let nov := (List.range' 1 6).filterMap (fun d =>
        if weekdayOfDays (dayNumber y 11 d) = 6
        then some (natDigits y ++ '-' :: ('1' :: '1' :: '-' :: pad2 d)) else none)
      some (fixed ++ easterBased ++ mid :: (oct ++ nov))

/-- calendar.ts weekdayOf: weekday of the date's noon-UTC instant rendered
in the calendar timezone. -/
def weekdayOfE (date : Str) (tz : Int → Int) : Option Nat :=
  match parseDateKey date with
  | (some y, some m, some d) =>
    match jsDateUTCdays y (m - 1) d with
    | none => none
    | some n =>
      let ms : Int := (n : Int) * 86400000 + 43200000
      let loc : Int := ms + tz ms
      if loc < 0 then none
      else some (weekdayOfDays (loc.toNat / 86400000))
  | _ => none

/-- calendar.ts isWorkingDay: override wins, then Swedish holidays, then
weekend days; `none` models a thrown error (NaN year, unmodelled input). -/
def isWorkingDayE (date : Str) (cal : ProjectCalendar) : Option Bool :=
  match findOverride cal.overrides date with
  | some o => some o.isWorkingDay
  | none =>
    match (parseDateKey date).1 with
    | none => none
    | some yi =>
      if yi < 1970 then none
      else
        match swedishHolidaysE yi.toNat with
        | none => none
        | some hs =>
          if date ∈ hs then some false
          else
            match weekdayOfE date cal.timezone with
            | none => none
            | some wd => if wd ∈ cal.weekendDays then some false else some true

/-- The walking loop shared by both branches of calendar.ts diffWorkingDays:
walk toward `target`, adding `delta` for every working day seen. -/
def diffGo (cal : ProjectCalendar) (target : Str) (delta : Int) :
    Nat → Str → Int → FRes Int
  | 0, cur, acc => if cur = target then .ok acc else .spin
  | fuel + 1, cur, acc =>
    if cur = target then .ok acc
    else
      match isWorkingDayE cur cal with
      | none => .err
      | some w =>
        match nextDay cur with
        | none => .err
        | some c2 => diffGo cal target delta fuel c2 (if w then acc + delta else acc)

/-- calendar.ts diffWorkingDays: 0 on equal keys; walk [start, endExclusive)
forward when start < endExclusive (JS string order), else walk
[endExclusive, start) counting negatively. -/
def diffWorkingDaysF (fuel : Nat) (start endEx : Str) (cal : ProjectCalendar) : FRes Int :=
  if start = endEx then .ok 0
  else if strLt start endEx then diffGo cal endEx 1 fuel start 0
  else diffGo cal start (-1) fuel endEx 0

/-- The loop of calendar.ts addWorkingDays: step to the next day first, then
count it if working. -/
def addGo (cal : ProjectCalendar) : Nat → Str → Nat → FRes Str
  | _, cur, 0 => .ok cur
  | 0, _, _ + 1 => .spin
  | fuel + 1, cur, r + 1 =>
    match nextDay cur with
    | none => .err
    | some c2 =>
      match isWorkingDayE c2 cal with
      | none => .err
      | some w => addGo cal fuel c2 (if w then r else r + 1)

/-- calendar.ts addWorkingDays; negative day counts throw. -/
def addWorkingDaysF (fuel : Nat) (start : Str) (days : Int) (cal : ProjectCalendar) :
    FRes Str :=
  if days < 0 then .err
  else addGo cal fuel start days.toNat

/-- The loop of calendar.ts nextWorkingDay. -/
def nwGo (cal : ProjectCalendar) : Nat → Str → FRes Str
  | fuel, cur =>
    match isWorkingDayE cur cal with
    | none => .err
    | some true => .ok cur
    | some false =>
      match fuel with
      | 0 => .spin
      | fuel + 1 =>
        match nextDay cur with
        | none => .err
        | some c2 => nwGo cal fuel c2

/-- calendar.ts nextWorkingDay: the date itself if working, else walk
forward. -/
def nextWorkingDayF (fuel : Nat) (date : Str) (cal : ProjectCalendar) : FRes Str :=
  nwGo cal fuel date

/-- The default Swedish calendar (weekend Saturday/Sunday, no overrides),
with the Stockholm timezone abstracted by an offset function. -/
def swedishCalendar (tz : Int → Int) : ProjectCalendar :=
  { timezone := tz, weekendDays := [0, 6], overrides := [] }

/-- Test fixture: an override marking 2025-02-18 as an extra working day. -/
def ovCE : CalendarOverride :=
  { id := dk ("ov1"), date := dk ("2025-02-18"), isWorkingDay := true, label := dk ("extra") }

/-- Test fixture: a calendar whose weekend covers all seven weekdays, with
2025-02-18 as its only working day. -/
def allWeekendCal : ProjectCalendar :=
  { timezone := utcTz, weekendDays := [0, 1, 2, 3, 4, 5, 6], overrides := [ovCE] }

/-! ## Embedding of the part-state module (cutoff 00:01 semantics) -/

/-- partState getDateAndTimeInTz: local civil date string, hour and minute of
an instant under the offset-function timezone model. -/
def getDateAndTimeInTz (ts : Int) (tz : Int → Int) : Option (Str × Nat × Nat) :=
  let loc := ts + tz ts
  if loc < 0 then none
  else
    let l := loc.toNat
    some (canon (civilFromDays (l / 86400000)), l % 86400000 / 3600000, l % 3600000 / 60000)

/-- partState isAtOrPastCutoff: true iff now is at or past 00:01:00 local
time on dateOnly (local date compared first, by JS string order). -/
def isAtOrPastCutoff (now : Int) (dateOnly : Str) (tz : Int → Int) : Option Bool :=
  match getDateAndTimeInTz now tz with
  | none => none
  | some (date, hour, minute) =>
    if strLt dateOnly date then some true
    else if strLt date dateOnly then some false
    else some (decide (hour > 0) || decide (minute ≥ 1))

/-- partState PartStateInputs. -/
structure PartStateInputs where
  endDate : Str
  approved : Bool
  notificationDate : Option Str := none
  now : Int
  timezone : Int → Int

/-- partState PartState (cutoff-based display state). -/
inductive PartState where
  | NotDue
  | Due
  | Overdue
  | Snoozed
  | Approved
deriving DecidableEq, Repr

/-- partState computePartState: Approved, else NotDue before the end-date
cutoff, else Snoozed before a set notification-date cutoff, else Overdue at
or past the cutoff of the first working day after the end date, else Due. -/
def computePartStateF (fuel : Nat) (inputs : PartStateInputs)
    (calendar : ProjectCalendar) : FRes PartState :=
  if inputs.approved then .ok .Approved
  else
    match isAtOrPastCutoff inputs.now inputs.endDate inputs.timezone with
    | none => .err
    | some false => .ok .NotDue
    | some true =>
      let snoozed : FRes Bool :=
        match inputs.notificationDate with
        | none => .ok false
        | some nd =>
          match isAtOrPastCutoff inputs.now nd inputs.timezone with
          | none => .err
          | some pastNd => .ok (!pastNd)
      match snoozed with
      | .err => .err
      | .spin => .spin
      | .ok true => .ok .Snoozed
      | .ok false =>
        match addWorkingDaysF fuel inputs.endDate 1 calendar with
        | .err => .err
        | .spin => .spin
        | .ok fwd =>
          match isAtOrPastCutoff inputs.now fwd inputs.timezone with
          | none => .err
          | some true => .ok .Overdue
          | some false => .ok .Due

/-! ## Embedding of the workingDays module (weekday-set calendar)

Only the functions reached by the claims are embedded: isoWeekday,
addCalendarDays, isWorkingDay and diffWorkingDays. -/

namespace WD

/-- workingDays WorkingDayConfig. -/
structure WorkingDayConfig where
  workdays : List Nat
  holidays : List Str := []

/-- A canonical "YYYY-MM-DD" date string parsed back to its triple; `none`
models the Invalid Date that JS Date parsing yields on anything else
(including out-of-range fields), restricted to the modelled year range. -/
def dateFromCanon (s : Str) : Option (Nat × Nat × Nat) :=
  match parseDateKey s with
  | (some y, some m, some d) =>
    if (1970 ≤ y ∧ y ≤ 9999 ∧ 1 ≤ m ∧ 1 ≤ d) ∧
        (m.toNat ≤ 12 ∧ d.toNat ≤ monthLen y.toNat m.toNat ∧
          s = formatDateKey y.toNat m.toNat d.toNat) then
      some (y.toNat, m.toNat, d.toNat)
    else none
  | _ => none

/-- workingDays isoWeekday: 1 = Monday .. 7 = Sunday; `none` is the NaN
produced on an invalid date. -/
def isoWeekdayE (s : Str) : Option Nat :=
  match dateFromCanon s with
  | none => none
  | some t =>
    let utcDay := weekdayOfDays (dayNumber t.1 t.2.1 t.2.2)
    some (if utcDay = 0 then 7 else utcDay)

/-- workingDays addCalendarDays; `none` models the exception thrown by
toISOString on an invalid date (and leaving the modelled domain). -/
def addCalendarDaysE (s : Str) (days : Int) : Option Str :=
  match dateFromCanon s with
  | none => none
  | some t =>
    let n : Int := (dayNumber t.1 t.2.1 t.2.2 : Int) + days
    if n < 0 then none else some (toKeyUTC n.toNat)

/-- workingDays isWorkingDay: not a holiday, and the ISO weekday is in the
workday set (empty set defaults to Monday-Friday); NaN is in no set. -/
def isWorkingDay (date : Str) (cfg : WorkingDayConfig) : Bool :=
  let wds := if cfg.workdays = [] then [1, 2, 3, 4, 5] else cfg.workdays
  if date ∈ cfg.holidays then false
  else
    match isoWeekdayE date with
    | none => false
    | some w => decide (w ∈ wds)

/-- The counting loop of workingDays diffWorkingDays: d from frm+1 while
d <= to (JS string order). -/
def diffGo (cfg : WorkingDayConfig) (toKey : Str) : Nat → Str → Int → FRes Int
  | 0, d, c => if strLe d toKey = false then .ok c else .spin
  | fuel + 1, d, c =>
    if strLe d toKey = false then .ok c
    else
      let c' := if isWorkingDay d cfg then c + 1 else c
      match addCalendarDaysE d 1 with
      | none => .err
      | some d2 => diffGo cfg toKey fuel d2 c'

/-- The nonnegative core of workingDays diffWorkingDays (frm at or below
to in string order). -/
def diffCore (fuel : Nat) (frm toKey : Str) (cfg : WorkingDayConfig) : FRes Int :=
  if frm = toKey then .ok 0
  else
    match addCalendarDaysE frm 1 with
    | none => .err
    | some d1 => diffGo cfg toKey fuel d1 0

/-- workingDays diffWorkingDays, sign-aware: the source recursion
`to < from, return -diff(to, from)` is unrolled one step (string < is
asymmetric, so the inner call takes the nonnegative branch). -/
def diffWorkingDaysF (fuel : Nat) (frm toKey : Str) (cfg : WorkingDayConfig) : FRes Int :=
  if strLt toKey frm then
    match diffCore fuel toKey frm cfg with
    | .ok k => .ok (-k)
    | .err => .err
    | .spin => .spin
  else diffCore fuel frm toKey cfg

end WD

/-! ## Embedding of domain events (events.ts) -/

/-- The closed union of domain event type tags. -/
inductive EvType where
  | PartApproved
  | PartSnoozed
  | PartCompleted
  | PartReopened
  | DeviationRaised
  | DeviationResolved
deriving DecidableEq, Repr

/-- DomainEvent: the union members share this record; fields that only some
members carry are optional. -/
structure DomainEvent where
  type : EvType
  partId : Str
  timestamp : Int
  commandId : Option Str := none
  version : Int := 0
  notificationDate : Option Str := none
  deviationId : Option Str := none
deriving DecidableEq, Repr

/-- One insertion step of a stable ascending sort by timestamp. -/
def insertByTs (e : DomainEvent) : List DomainEvent → List DomainEvent
  | [] => [e]
  | x :: xs => if x.timestamp < e.timestamp then x :: insertByTs e xs else e :: x :: xs

/-- JS Array.prototype.sort with the comparator (a, b) => a.timestamp -
b.timestamp: ascending by timestamp and stable (guaranteed by the JS spec),
so any stable implementation is a faithful model. -/
def sortByTs (l : List DomainEvent) : List DomainEvent := l.foldr insertByTs []

/-! ## Embedding of src/domain/partLifecycle.ts -/

/-- Part lifecycle state. -/
inductive PartLifecycleState where
  | Planned
  | Active
  | Completed
  | Approved
  | Blocked
deriving DecidableEq, Repr

def VALID_APPROVE : List PartLifecycleState := [.Planned, .Active]
def VALID_COMPLETE : List PartLifecycleState := [.Planned, .Active]
def VALID_SNOOZE : List PartLifecycleState := [.Planned, .Active]
def VALID_REOPEN : List PartLifecycleState := [.Completed, .Approved]

/-- The switch statement of projectLifecycleState (default: no change). -/
def lcStep (s : PartLifecycleState) (e : DomainEvent) : PartLifecycleState :=
  match e.type with
  | .PartApproved => .Approved
  | .PartCompleted => .Completed
  | .PartReopened => .Active
  | .PartSnoozed => .Active
  | _ => s

/-- partLifecycle.ts projectLifecycleState: filter the part's events, sort
by timestamp (stable), fold from Planned, then normalize a Planned result to
Active when any event was seen. -/
def projectLifecycleState (events : List DomainEvent) (partId : Str) : PartLifecycleState :=
  let partEvents := sortByTs (events.filter (fun e => decide (e.partId = partId)))
  let state := partEvents.foldl lcStep .Planned
  if state = .Planned ∧ partEvents ≠ [] then .Active else state

/-- InvariantViolation metadata carried by a rejected transition. -/
structure InvariantViolation where
  current : PartLifecycleState
  valid : List PartLifecycleState
deriving DecidableEq, Repr

/-- partLifecycle.ts assertValidTransition. -/
def assertValidTransition (current : PartLifecycleState)
    (valid : List PartLifecycleState) : Except InvariantViolation Unit :=
  if current ∈ valid then .ok () else .error ⟨current, valid⟩

/-- partLifecycle.ts approvePart. -/
def approvePart (events : List DomainEvent) (partId : Str) (timestamp : Int) :
    Except InvariantViolation (List DomainEvent) := do
  let current := projectLifecycleState events partId
  let _ ← assertValidTransition current VALID_APPROVE
  pure (events ++ [{ type := .PartApproved, partId := partId, timestamp := timestamp }])

/-- partLifecycle.ts completePart. -/
def completePart (events : List DomainEvent) (partId : Str) (timestamp : Int) :
    Except InvariantViolation (List DomainEvent) := do
  let current := projectLifecycleState events partId
  let _ ← assertValidTransition current VALID_COMPLETE
  pure (events ++ [{ type := .PartCompleted, partId := partId, timestamp := timestamp }])

/-- partLifecycle.ts snoozePart. -/
def snoozePart (events : List DomainEvent) (partId : Str) (notificationDate : Str)
    (timestamp : Int) : Except InvariantViolation (List DomainEvent) := do
  let current := projectLifecycleState events partId
  let _ ← assertValidTransition current VALID_SNOOZE
  pure (events ++
    [{ type := .PartSnoozed, partId := partId,
       notificationDate := some notificationDate, timestamp := timestamp }])

/-- partLifecycle.ts reopenPart. -/
def reopenPart (events : List DomainEvent) (partId : Str) (timestamp : Int) :
    Except InvariantViolation (List DomainEvent) := do
  let current := projectLifecycleState events partId
  let _ ← assertValidTransition current VALID_REOPEN
  pure (events ++ [{ type := .PartReopened, partId := partId, timestamp := timestamp }])

/-! ## Embedding of src/domain/eventStore.ts (InMemoryProjectEventStore) -/

/-- projectorSnapshot.ts ProjectorSnapshot; the per-part state payload is
opaque to the store and modelled as an association list. -/
structure ProjectorSnapshot where
  projectId : Str
  lastEventTimestamp : Int
  lifecycleStateByPart : List (Str × Str) := []
deriving DecidableEq, Repr


/-- ConcurrencyError metadata. -/
structure ConcurrencyError where
  projectId : Str
  expectedVersion : Int
  currentVersion : Nat
deriving DecidableEq, Repr

/-- The in-memory store state: the per-project map, absent projects mapping
to the empty log. -/
structure InMemoryStore where
  byProject : Str → List DomainEvent

namespace ES

/-- eventStore.ts InMemoryProjectEventStore.append. -/
def append (st : InMemoryStore) (projectId : Str) (expectedVersion : Int)
    (events : List DomainEvent) : Except ConcurrencyError InMemoryStore :=
  let list := st.byProject projectId
  let currentVersion := list.length
  if (currentVersion : Int) ≠ expectedVersion then
    .error ⟨projectId, expectedVersion, currentVersion⟩
  else if events = [] then .ok st
  else
    let withVersion := events.mapIdx
      (fun index e => { e with version := (currentVersion : Int) + index + 1 })
    .ok ⟨fun p => if p = projectId then list ++ withVersion else st.byProject p⟩

/-- eventStore.ts InMemoryProjectEventStore.loadByProject. -/
def loadByProject (st : InMemoryStore) (projectId : Str) : List DomainEvent :=
  st.byProject projectId

/-- eventStore.ts InMemoryProjectEventStore.loadByPart. -/
def loadByPart (st : InMemoryStore) (projectId partId : Str) : List DomainEvent :=
  (st.byProject projectId).filter (fun e => decide (e.partId = partId))

/-- eventStore.ts InMemoryProjectEventStore.hasCommand. -/
def hasCommand (st : InMemoryStore) (projectId commandId : Str) : Bool :=
  (st.byProject projectId).any (fun e => decide (e.commandId = some commandId))

/-- eventStore.ts InMemoryProjectEventStore.compact (a no-op). -/
def compact (st : InMemoryStore) (_projectId : Str) (_snapshot : ProjectorSnapshot) : InMemoryStore := st

end ES

/-! ## Embedding of the file-backed store (FileProjectEventStore)

One project's pair of files (NDJSON event log, snapshot JSON) is modelled as
already-parsed values; well-formed serialization is assumed, matching the
store's own validation on load. -/

/-- The two on-disk artifacts of one project in the file store. -/
structure FileProjectState where
  log : List DomainEvent
  snap : Option ProjectorSnapshot
deriving DecidableEq, Repr

namespace FS

/-- FileProjectEventStore.append: append the events to the log file (empty
appends return early without touching storage). -/
def append (st : FileProjectState) (events : List DomainEvent) : FileProjectState :=
  if events = [] then st else { st with log := st.log ++ events }

/-- FileProjectEventStore.loadByProject: all log events when no snapshot
exists, else only those with timestamp strictly past the snapshot cutoff. -/
def loadByProject (st : FileProjectState) : List DomainEvent :=
  match st.snap with
  | none => st.log
  | some s => st.log.filter (fun e => decide (s.lastEventTimestamp < e.timestamp))

/-- FileProjectEventStore.compact: validate the snapshot's projectId, write
the snapshot (atomically in the source), then truncate the event log to
empty. -/
def compact (_st : FileProjectState) (projectId : Str) (snapshot : ProjectorSnapshot) :
    Except Unit FileProjectState :=
  if snapshot.projectId ≠ projectId then .error ()
  else .ok { log := [], snap := some snapshot }

end FS

/-! ## Embedding of the pace and progress projections -/

/-- calendar.ts dateKeyFromDate: the local civil date key of an instant. -/
def dateKeyFromDateE (ts : Int) (tz : Int → Int) : Option Str :=
  let loc := ts + tz ts
  if loc < 0 then none
  else some (canon (civilFromDays (loc.toNat / 86400000)))

/-- pace projectPartPace: earliest PartCompleted for the part (stable sort
by timestamp, then the first element); null when none; else the
workingDays-module distance from endDate to the completion's local date,
under a weekday-only config derived from the calendar's weekend days. -/
def projectPartPaceF (fuel : Nat) (events : List DomainEvent) (partId : Str)
    (endDate : Str) (calendar : ProjectCalendar) (tz : Int → Int) : FRes (Option Int) :=
  let completed := (sortByTs (events.filter
    (fun e => decide (e.partId = partId) && decide (e.type = .PartCompleted)))).head?
  match completed with
  | none => .ok none
  | some c =>
    match dateKeyFromDateE c.timestamp tz with
    | none => .err
    | some completedKey =>
      let cfg : WD.WorkingDayConfig :=
        { workdays :=
            if decide (0 ∈ calendar.weekendDays) && decide (6 ∈ calendar.weekendDays)
            then [1, 2, 3, 4, 5] else [1, 2, 3, 4, 5, 6, 7] }
      match WD.diffWorkingDaysF fuel endDate completedKey cfg with
      | .ok k => .ok (some k)
      | .err => .err
      | .spin => .spin

/-- progress.ts PartCompletionStatus. -/
inductive PartCompletionStatus where
  | NotCompleted
  | OnTime
  | Delayed
  | Early
deriving DecidableEq, Repr

/-- progress.ts projectPartCompletionStatus. -/
def projectPartCompletionStatusF (fuel : Nat) (events : List DomainEvent)
    (partId : Str) (endDate : Str) (calendar : ProjectCalendar) (tz : Int → Int) :
    FRes PartCompletionStatus :=
  match projectPartPaceF fuel events partId endDate calendar tz with
  | .err => .err
  | .spin => .spin
  | .ok none => .ok .NotCompleted
  | .ok (some delta) =>
    .ok (if delta < -1 then .Early else if delta ≤ 1 then .OnTime else .Delayed)

/-- projections PartBase. -/
structure PartBase where
  partId : Str
  endDate : Str
deriving DecidableEq, Repr

/-- The slice of projectSnapshot.ts ProjectSnapshot reached by
projectProgress (only its parts list is read there). -/
structure ProjectSnapshot where
  parts : List PartBase
deriving DecidableEq, Repr

/-- progress.ts ProjectProgressStats; the JS number percent is modelled as
an exact rational. -/
structure ProjectProgressStats where
  percent : ℚ
  onTime : Nat
  delayed : Nat
  early : Nat
  notCompleted : Nat
deriving DecidableEq, Repr

/-- The counting loop of progress.ts projectProgress. -/
def tallyGo (fuel : Nat) (events : List DomainEvent) (calendar : ProjectCalendar)
    (tz : Int → Int) : List PartBase → Nat × Nat × Nat × Nat → FRes (Nat × Nat × Nat × Nat)
  | [], acc => .ok acc
  | p :: ps, (ot, dl, ea, nc) =>
    match projectPartCompletionStatusF fuel events p.partId p.endDate calendar tz with
    | .err => .err
    | .spin => .spin
    | .ok .OnTime => tallyGo fuel events calendar tz ps (ot + 1, dl, ea, nc)
    | .ok .Delayed => tallyGo fuel events calendar tz ps (ot, dl + 1, ea, nc)
    | .ok .Early => tallyGo fuel events calendar tz ps (ot, dl, ea + 1, nc)
    | .ok .NotCompleted => tallyGo fuel events calendar tz ps (ot, dl, ea, nc + 1)

/-- progress.ts projectProgress. -/
def projectProgressF (fuel : Nat) (snapshot : ProjectSnapshot)
    (events : List DomainEvent) (calendar : ProjectCalendar) (tz : Int → Int) :
    FRes ProjectProgressStats :=
  if snapshot.parts = [] then .ok ⟨0, 0, 0, 0, 0⟩
  else
    match tallyGo fuel events calendar tz snapshot.parts (0, 0, 0, 0) with
    | .err => .err
    | .spin => .spin
    | .ok (ot, dl, ea, nc) =>
      let completed := ot + dl + ea
      .ok ⟨(completed : ℚ) / (snapshot.parts.length : ℚ), ot, dl, ea, nc⟩

/-! ## Spec-side definitions for the cutoff claim (C4)

These two definitions follow the claim's words (not the source) and are the
comparison targets of the C4 theorem. -/

/-- Modelled from the spec: now is at or past the 00:01:00 local-time cutoff
of a date, expressed on the local-milliseconds timeline as the instant
dayNumber * 86400000 + 60000. -/
def cutoffB (d : Nat × Nat × Nat) (now : Int) (tz : Int → Int) : Bool :=
  decide ((dayNumber d.1 d.2.1 d.2.2 : Int) * 86400000 + 60000 ≤ now + tz now)

/-- Modelled from the spec: the claim's classification cascade — Approved
when approved; NotDue before the end-date cutoff; Snoozed before a set
notification-date cutoff; Overdue at or past the cutoff of the first
working day after the end date (passed explicitly); else Due. -/
def claimPartState (now : Int) (tz : Int → Int) (approved : Bool)
    (ed : Nat × Nat × Nat) (ndo : Option (Nat × Nat × Nat))
    (fwd : Nat × Nat × Nat) : PartState :=
  if approved then .Approved
  else if !cutoffB ed now tz then .NotDue
  else
    match ndo with
    | some nd =>
      if !cutoffB nd now tz then .Snoozed
      else if cutoffB fwd now tz then .Overdue else .Due
    | none => if cutoffB fwd now tz then .Overdue else .Due

/-! ## Lemmas: digit strings, padding, split, string order -/

theorem natDigitsGo_congr : ∀ {n f f' : Nat}, n ≤ f → n ≤ f' →
    natDigitsGo f n = natDigitsGo f' n := by
  intro n
  induction n using Nat.strong_induction_on with
  | _ n ih =>
    intro f f' hf hf'
    match f, f' with
    | 0, 0 => rfl
    | 0, g + 1 =>
      have : n = 0 := by omega
      subst this
      simp [natDigitsGo]
    | g + 1, 0 =>
      have : n = 0 := by omega
      subst this
      simp [natDigitsGo]
    | g + 1, g' + 1 =>
      by_cases h10 : n < 10
      · simp [natDigitsGo, h10]
      · have hlt : n / 10 < n := Nat.div_lt_self (by omega) (by omega)
        have h1 : n / 10 ≤ g := by omega
        have h2 : n / 10 ≤ g' := by omega
        simp only [natDigitsGo, if_neg h10]
        rw [ih (n / 10) hlt h1 h2]

/-- The defining recursion of natDigits. -/
theorem natDigits_eq (n : Nat) : natDigits n =
    if n < 10 then [digitChar n]
    else natDigits (n / 10) ++ [digitChar (n % 10)] := by
  by_cases h10 : n < 10
  · match n with
    | 0 => simp [natDigits, natDigitsGo]
    | k + 1 => simp [natDigits, natDigitsGo, h10]
  · match n, h10 with
    | k + 1, h10 =>
      rw [if_neg h10]
      show natDigitsGo (k + 1) (k + 1) = _
      simp only [natDigitsGo, if_neg h10]
      have hlt : (k + 1) / 10 < k + 1 := Nat.div_lt_self (by omega) (by omega)
      rw [natDigitsGo_congr (show (k + 1) / 10 ≤ k by omega) (le_refl _)]
      rfl

theorem yearLen_ge (y : Nat) : 365 ≤ yearLen y := by
  unfold yearLen; split <;> omega

theorem cfdYearGo_congr : ∀ {n f f' y : Nat}, n ≤ f → n ≤ f' →
    cfdYearGo f y n = cfdYearGo f' y n := by
  intro n
  induction n using Nat.strong_induction_on with
  | _ n ih =>
    intro f f' y hf hf'
    match f, f' with
    | 0, 0 => rfl
    | 0, g + 1 =>
      have : n = 0 := by omega
      subst this
      have hyl := yearLen_ge y
      show cfdMonthF 11 y 1 0 = cfdYearGo (g + 1) y 0
      simp only [cfdYearGo]
      rw [if_pos (by omega)]
    | g + 1, 0 =>
      have : n = 0 := by omega
      subst this
      have hyl := yearLen_ge y
      show cfdYearGo (g + 1) y 0 = cfdMonthF 11 y 1 0
      simp only [cfdYearGo]
      rw [if_pos (by omega)]
    | g + 1, g' + 1 =>
      by_cases hy : n < yearLen y
      · simp [cfdYearGo, hy]
      · have hyl := yearLen_ge y
        have hlt : n - yearLen y < n := by omega
        simp only [cfdYearGo, if_neg hy]
        exact ih _ hlt (by omega) (by omega)

/-- The defining recursion of cfdYear. -/
theorem cfdYear_eq (y n : Nat) : cfdYear y n =
    if n < yearLen y then cfdMonthF 11 y 1 n
    else cfdYear (y + 1) (n - yearLen y) := by
  by_cases hy : n < yearLen y
  · match n with
    | 0 =>
      rw [if_pos hy]
      rfl
    | k + 1 =>
      rw [if_pos hy]
      show cfdYearGo (k + 1) y (k + 1) = _
      simp [cfdYearGo, hy]
  · have hyl := yearLen_ge y
    match n, (show 365 ≤ n by omega) with
    | k + 1, _ =>
      rw [if_neg hy]
      show cfdYearGo (k + 1) y (k + 1) = _
      simp only [cfdYearGo, if_neg hy]
      exact cfdYearGo_congr (show k + 1 - yearLen y ≤ k by omega) (le_refl _)


theorem digitChar_toNat {n : Nat} (h : n < 10) : (digitChar n).toNat = 48 + n := by
  interval_cases n <;> decide

theorem digitVal_digitChar {n : Nat} (h : n < 10) : digitVal (digitChar n) = n := by
  simp [digitVal, digitChar_toNat h]

theorem isDigitCh_digitChar {n : Nat} (h : n < 10) : isDigitCh (digitChar n) = true := by
  simp [isDigitCh, digitChar_toNat h]; omega

theorem digitChar_ne_dash {n : Nat} (h : n < 10) : digitChar n ≠ '-' := by
  interval_cases n <;> decide

theorem digitVal_le_of_digit {c : Char} (h : isDigitCh c = true) : digitVal c ≤ 9 := by
  simp [isDigitCh] at h; simp [digitVal]; omega

theorem natDigits_ne_nil (n : Nat) : natDigits n ≠ [] := by
  rw [natDigits_eq]
  split <;> simp

theorem natDigits_all_digits (n : Nat) : (natDigits n).all isDigitCh = true := by
  induction n using Nat.strong_induction_on with
  | _ n ih =>
    rw [natDigits_eq]
    split
    · simpa using isDigitCh_digitChar (by omega)
    · rename_i h
      have h1 := ih (n / 10) (Nat.div_lt_self (by omega) (by omega))
      simp only [List.all_append, h1]
      simpa using isDigitCh_digitChar (Nat.mod_lt _ (by omega))

theorem natDigits_no_dash (n : Nat) : (natDigits n).all (fun c => decide (c ≠ '-')) = true := by
  induction n using Nat.strong_induction_on with
  | _ n ih =>
    rw [natDigits_eq]
    split
    · simpa using digitChar_ne_dash (by omega)
    · rename_i h
      have h1 := ih (n / 10) (Nat.div_lt_self (by omega) (by omega))
      simp only [List.all_append, h1]
      simpa using digitChar_ne_dash (Nat.mod_lt _ (by omega))

theorem digitsToNat_append (a b : Str) :
    digitsToNat (a ++ b) = digitsToNat a * 10 ^ b.length + digitsToNat b := by
  induction a with
  | nil => simp [digitsToNat]
  | cons c cs ih =>
    have hc : digitsToNat (c :: cs) = digitVal c * 10 ^ cs.length + digitsToNat cs := rfl
    show digitVal c * 10 ^ (cs ++ b).length + digitsToNat (cs ++ b) = _
    rw [hc, ih, List.length_append, pow_add]
    ring

theorem digitsToNat_natDigits (n : Nat) : digitsToNat (natDigits n) = n := by
  induction n using Nat.strong_induction_on with
  | _ n ih =>
    rw [natDigits_eq]
    split
    · rename_i h
      simp [digitsToNat, digitVal_digitChar h]
    · rename_i h
      rw [digitsToNat_append]
      have h1 := ih (n / 10) (Nat.div_lt_self (by omega) (by omega))
      have h2 : digitsToNat [digitChar (n % 10)] = n % 10 := by
        simp [digitsToNat, digitVal_digitChar (Nat.mod_lt _ (show 0 < 10 by omega))]
      simp [h1, h2]
      omega

theorem digitsToNat_replicate_zero (k : Nat) :
    digitsToNat (List.replicate k '0') = 0 := by
  induction k with
  | zero => rfl
  | succ k ih => simp [List.replicate_succ, digitsToNat, ih, digitVal]

theorem digitsToNat_padZeros (w : Nat) (s : Str) :
    digitsToNat (padZeros w s) = digitsToNat s := by
  unfold padZeros
  rw [digitsToNat_append, digitsToNat_replicate_zero]
  simp

theorem padZeros_all_digits {s : Str} (h : s.all isDigitCh = true) (w : Nat) :
    (padZeros w s).all isDigitCh = true := by
  unfold padZeros
  simp only [List.all_append, h, Bool.and_true]
  rw [List.all_eq_true]
  intro c hc
  rw [List.eq_of_mem_replicate hc]
  decide

theorem padZeros_no_dash {s : Str} (h : s.all (fun c => decide (c ≠ '-')) = true) (w : Nat) :
    (padZeros w s).all (fun c => decide (c ≠ '-')) = true := by
  unfold padZeros
  simp only [List.all_append, h, Bool.and_true]
  rw [List.all_eq_true]
  intro c hc
  rw [List.eq_of_mem_replicate hc]
  decide

theorem natDigits_length_le {n k : Nat} (hk : 1 ≤ k) (h : n < 10 ^ k) :
    (natDigits n).length ≤ k := by
  induction k generalizing n with
  | zero => omega
  | succ k ih =>
    rw [natDigits_eq]
    split
    · simp
    · rename_i hn
      have hk' : 1 ≤ k := by
        by_contra hc
        have : k = 0 := by omega
        subst this
        simp [pow_succ] at h
        omega
      have : n / 10 < 10 ^ k := by
        rw [Nat.div_lt_iff_lt_mul (by omega)]
        calc n < 10 ^ (k + 1) := h
        _ = 10 ^ k * 10 := by ring
      have := ih hk' this
      simp [List.length_append]
      omega

theorem padZeros_length {w : Nat} {s : Str} (h : s.length ≤ w) :
    (padZeros w s).length = w := by
  unfold padZeros
  simp [List.length_append]
  omega

theorem pad4_length {n : Nat} (h : n ≤ 9999) : (pad4 n).length = 4 :=
  padZeros_length (natDigits_length_le (by omega) (by omega))

theorem pad2_length {n : Nat} (h : n ≤ 99) : (pad2 n).length = 2 :=
  padZeros_length (natDigits_length_le (by omega) (by omega))

theorem digitsToNat_pad4 (n : Nat) : digitsToNat (pad4 n) = n := by
  unfold pad4; rw [digitsToNat_padZeros, digitsToNat_natDigits]

theorem digitsToNat_pad2 (n : Nat) : digitsToNat (pad2 n) = n := by
  unfold pad2; rw [digitsToNat_padZeros, digitsToNat_natDigits]

theorem pad4_all_digits (n : Nat) : (pad4 n).all isDigitCh = true :=
  padZeros_all_digits (natDigits_all_digits n) 4

theorem pad2_all_digits (n : Nat) : (pad2 n).all isDigitCh = true :=
  padZeros_all_digits (natDigits_all_digits n) 2

theorem pad4_no_dash (n : Nat) : (pad4 n).all (fun c => decide (c ≠ '-')) = true :=
  padZeros_no_dash (natDigits_no_dash n) 4

theorem pad2_no_dash (n : Nat) : (pad2 n).all (fun c => decide (c ≠ '-')) = true :=
  padZeros_no_dash (natDigits_no_dash n) 2

theorem pad4_ne_nil (n : Nat) : pad4 n ≠ [] := by
  unfold pad4 padZeros
  intro h
  rcases List.append_eq_nil.mp h with ⟨_, h2⟩
  exact natDigits_ne_nil n h2

theorem pad2_ne_nil (n : Nat) : pad2 n ≠ [] := by
  unfold pad2 padZeros
  intro h
  rcases List.append_eq_nil.mp h with ⟨_, h2⟩
  exact natDigits_ne_nil n h2

theorem strLt_cons (a b : Char) (as bs : Str) :
    strLt (a :: as) (b :: bs) =
      if a.toNat < b.toNat then true
      else if b.toNat < a.toNat then false
      else strLt as bs := rfl

theorem char_eq_of_toNat_eq {a b : Char} (h : a.toNat = b.toNat) : a = b := by
  apply Char.ext
  exact UInt32.toBitVec_injective (by
    have := congrArg (BitVec.ofNat 32) h
    simpa [Char.toNat, UInt32.toNat] using this)

theorem strLt_append_same (p a b : Str) : strLt (p ++ a) (p ++ b) = strLt a b := by
  induction p with
  | nil => rfl
  | cons c cs ih => simp [strLt_cons, ih]

theorem strLt_append_of_ne :
    ∀ {a b : Str} (x y : Str), a.length = b.length → a ≠ b →
      strLt (a ++ x) (b ++ y) = strLt a b
  | [], [], _, _, _, hne => absurd rfl hne
  | [], _ :: _, _, _, hlen, _ => by simp at hlen
  | _ :: _, [], _, _, hlen, _ => by simp at hlen
  | a :: as, b :: bs, x, y, hlen, hne => by
    by_cases hab : a.toNat = b.toNat
    · have hab' : a = b := char_eq_of_toNat_eq hab
      subst hab'
      have hne' : as ≠ bs := by
        intro h; exact hne (by rw [h])
      simp only [List.cons_append, strLt_cons, lt_irrefl, if_neg (lt_irrefl _)]
      simp only [Nat.lt_irrefl, if_false]
      exact strLt_append_of_ne x y (by simpa using hlen) hne'
    · simp only [List.cons_append, strLt_cons]
      rcases Nat.lt_or_ge a.toNat b.toNat with h | h
      · simp [h]
      · have h2 : b.toNat < a.toNat := by omega
        simp [h2, Nat.lt_asymm h2]

theorem digitsToNat_lt_pow {s : Str} (h : s.all isDigitCh = true) :
    digitsToNat s < 10 ^ s.length := by
  induction s with
  | nil => simp [digitsToNat]
  | cons c cs ih =>
    simp only [List.all_cons, Bool.and_eq_true] at h
    have h1 := digitVal_le_of_digit h.1
    have h2 := ih h.2
    simp only [digitsToNat, List.length_cons, pow_succ]
    calc digitVal c * 10 ^ cs.length + digitsToNat cs
        ≤ 9 * 10 ^ cs.length + digitsToNat cs := by
          exact Nat.add_le_add_right (Nat.mul_le_mul_right _ h1) _
      _ < 9 * 10 ^ cs.length + 10 ^ cs.length := by omega
      _ ≤ 10 ^ cs.length * 10 := by ring_nf; omega

theorem strLt_digits :
    ∀ {a b : Str}, a.length = b.length → a.all isDigitCh = true → b.all isDigitCh = true →
      strLt a b = decide (digitsToNat a < digitsToNat b)
  | [], [], _, _, _ => by simp [strLt, digitsToNat]
  | [], _ :: _, hlen, _, _ => by simp at hlen
  | _ :: _, [], hlen, _, _ => by simp at hlen
  | a :: as, b :: bs, hlen, ha, hb => by
    simp only [List.all_cons, Bool.and_eq_true] at ha hb
    have hlen' : as.length = bs.length := by simpa using hlen
    have hda : 48 ≤ a.toNat ∧ a.toNat ≤ 57 := by
      have := ha.1; simp [isDigitCh] at this; omega
    have hdb : 48 ≤ b.toNat ∧ b.toNat ≤ 57 := by
      have := hb.1; simp [isDigitCh] at this; omega
    have hva : digitsToNat as < 10 ^ as.length := digitsToNat_lt_pow ha.2
    have hvb : digitsToNat bs < 10 ^ bs.length := digitsToNat_lt_pow hb.2
    have hexp : (10 : Nat) ^ as.length = 10 ^ bs.length := by rw [hlen']
    simp only [strLt_cons, digitsToNat]
    rcases Nat.lt_trichotomy a.toNat b.toNat with h | h | h
    · have hv : digitVal a < digitVal b := by simp [digitVal]; omega
      have : digitVal a * 10 ^ as.length + digitsToNat as <
          digitVal b * 10 ^ bs.length + digitsToNat bs := by
        calc digitVal a * 10 ^ as.length + digitsToNat as
            < digitVal a * 10 ^ as.length + 10 ^ as.length := by omega
          _ = (digitVal a + 1) * 10 ^ as.length := by ring
          _ ≤ digitVal b * 10 ^ bs.length := by
              rw [hexp]; exact Nat.mul_le_mul_right _ (by omega)
          _ ≤ digitVal b * 10 ^ bs.length + digitsToNat bs := by omega
      simp [h, this]
    · have hv : digitVal a = digitVal b := by simp [digitVal, h]
      have hab : a = b := char_eq_of_toNat_eq h
      subst hab
      simp only [lt_irrefl, if_neg (lt_irrefl _)]
      rw [strLt_digits hlen' ha.2 hb.2]
      have : (digitsToNat as < digitsToNat bs) ↔
          (digitVal a * 10 ^ as.length + digitsToNat as <
            digitVal a * 10 ^ bs.length + digitsToNat bs) := by
        rw [← hlen']; omega
      simp only [Nat.lt_irrefl, if_false]
      by_cases hlt : digitsToNat as < digitsToNat bs
      · simp [hlt, this.mp hlt]
      · have hP : ¬ (digitVal a * 10 ^ as.length + digitsToNat as <
            digitVal a * 10 ^ bs.length + digitsToNat bs) := fun hc => hlt (this.mpr hc)
        simp [hlt, hP]
    · have hv : digitVal b < digitVal a := by simp [digitVal]; omega
      have : digitVal b * 10 ^ bs.length + digitsToNat bs <
          digitVal a * 10 ^ as.length + digitsToNat as := by
        calc digitVal b * 10 ^ bs.length + digitsToNat bs
            < digitVal b * 10 ^ bs.length + 10 ^ bs.length := by omega
          _ = (digitVal b + 1) * 10 ^ bs.length := by ring
          _ ≤ digitVal a * 10 ^ as.length := by
              rw [← hexp]; exact Nat.mul_le_mul_right _ (by omega)
          _ ≤ digitVal a * 10 ^ as.length + digitsToNat as := by omega
      simp [Nat.lt_asymm h, h]
      omega

theorem splitDash_append {a : Str} (r : Str)
    (h : a.all (fun c => decide (c ≠ '-')) = true) :
    splitDash (a ++ '-' :: r) = a :: splitDash r := by
  induction a with
  | nil => simp [splitDash]
  | cons c cs ih =>
    simp only [List.all_cons, Bool.and_eq_true, decide_eq_true_eq] at h
    simp only [List.cons_append, splitDash, if_neg h.1]
    rw [show cs.append ('-' :: r) = cs ++ '-' :: r from rfl, ih h.2]

theorem splitDash_ne_nil (s : Str) : splitDash s ≠ [] := by
  cases s with
  | nil => simp [splitDash]
  | cons c cs =>
    simp only [splitDash]
    split
    · simp
    · split <;> simp

theorem splitDash_all (a : Str) (h : a.all (fun c => decide (c ≠ '-')) = true) :
    splitDash a = [a] := by
  induction a with
  | nil => rfl
  | cons c cs ih =>
    simp only [List.all_cons, Bool.and_eq_true, decide_eq_true_eq] at h
    simp only [splitDash, if_neg h.1, ih h.2]

theorem jsNumber_pad4 (n : Nat) : jsNumber (pad4 n) = some (n : Int) := by
  unfold jsNumber
  rw [if_neg (by simp [List.isEmpty_iff]; exact pad4_ne_nil n),
    if_pos (pad4_all_digits n), digitsToNat_pad4]

theorem jsNumber_pad2 (n : Nat) : jsNumber (pad2 n) = some (n : Int) := by
  unfold jsNumber
  rw [if_neg (by simp [List.isEmpty_iff]; exact pad2_ne_nil n),
    if_pos (pad2_all_digits n), digitsToNat_pad2]

theorem splitDash_format (y m d : Nat) :
    splitDash (formatDateKey y m d) = [pad4 y, pad2 m, pad2 d] := by
  unfold formatDateKey
  rw [splitDash_append _ (pad4_no_dash y), splitDash_append _ (pad2_no_dash m),
    splitDash_all _ (pad2_no_dash d)]

/-- parseDateKey inverts formatDateKey (no range conditions needed). -/
theorem parse_format (y m d : Nat) :
    parseDateKey (formatDateKey y m d) = (some (y : Int), some (m : Int), some (d : Int)) := by
  unfold parseDateKey jsNumberAt
  rw [splitDash_format]
  simp [jsNumber_pad4, jsNumber_pad2]

/-- formatDateKey is injective. -/
theorem format_inj {y m d y' m' d' : Nat}
    (h : formatDateKey y m d = formatDateKey y' m' d') : y = y' ∧ m = m' ∧ d = d' := by
  have h1 := parse_format y m d
  have h2 := parse_format y' m' d'
  rw [h, h2] at h1
  simp only [Prod.mk.injEq, Option.some.injEq] at h1
  refine ⟨?_, ?_, ?_⟩
  · have := h1.1; exact_mod_cast this.symm
  · have := h1.2.1; exact_mod_cast this.symm
  · have := h1.2.2; exact_mod_cast this.symm

/-- JS string order on formatted date keys is lexicographic order on the
(year, month, day) fields, as long as every field fits its padded width. -/
theorem strLt_format {y1 m1 d1 y2 m2 d2 : Nat}
    (hy1 : y1 ≤ 9999) (hy2 : y2 ≤ 9999) (hm1 : m1 ≤ 99) (hm2 : m2 ≤ 99)
    (hd1 : d1 ≤ 99) (hd2 : d2 ≤ 99) :
    strLt (formatDateKey y1 m1 d1) (formatDateKey y2 m2 d2) =
      decide (y1 < y2 ∨ (y1 = y2 ∧ (m1 < m2 ∨ (m1 = m2 ∧ d1 < d2)))) := by
  unfold formatDateKey
  by_cases hy : y1 = y2
  · subst hy
    rw [show pad4 y1 ++ '-' :: (pad2 m1 ++ '-' :: pad2 d1) =
        (pad4 y1 ++ ['-']) ++ (pad2 m1 ++ '-' :: pad2 d1) by simp,
      show pad4 y1 ++ '-' :: (pad2 m2 ++ '-' :: pad2 d2) =
        (pad4 y1 ++ ['-']) ++ (pad2 m2 ++ '-' :: pad2 d2) by simp,
      strLt_append_same]
    by_cases hm : m1 = m2
    · subst hm
      rw [show pad2 m1 ++ '-' :: pad2 d1 = (pad2 m1 ++ ['-']) ++ pad2 d1 by simp,
        show pad2 m1 ++ '-' :: pad2 d2 = (pad2 m1 ++ ['-']) ++ pad2 d2 by simp,
        strLt_append_same,
        strLt_digits (by rw [pad2_length hd1, pad2_length hd2])
          (pad2_all_digits d1) (pad2_all_digits d2), digitsToNat_pad2, digitsToNat_pad2]
      simp
    · have hne : pad2 m1 ≠ pad2 m2 := by
        intro hc
        exact hm (by rw [← digitsToNat_pad2 m1, hc, digitsToNat_pad2])
      rw [strLt_append_of_ne _ _ (by rw [pad2_length hm1, pad2_length hm2]) hne,
        strLt_digits (by rw [pad2_length hm1, pad2_length hm2])
          (pad2_all_digits m1) (pad2_all_digits m2), digitsToNat_pad2, digitsToNat_pad2]
      simp [hm]
  · have hne : pad4 y1 ≠ pad4 y2 := by
      intro hc
      exact hy (by rw [← digitsToNat_pad4 y1, hc, digitsToNat_pad4])
    rw [strLt_append_of_ne _ _ (by rw [pad4_length hy1, pad4_length hy2]) hne,
      strLt_digits (by rw [pad4_length hy1, pad4_length hy2])
        (pad4_all_digits y1) (pad4_all_digits y2), digitsToNat_pad4, digitsToNat_pad4]
    simp [hy]

/-! ## Lemmas: Gregorian day arithmetic -/

theorem monthLen_pos {y m : Nat} (h1 : 1 ≤ m) (h12 : m ≤ 12) : 0 < monthLen y m := by
  interval_cases m <;> (simp [monthLen]; try split) <;> omega

theorem monthLen_le {y m : Nat} : monthLen y m ≤ 31 := by
  unfold monthLen
  split <;> first | omega | (split <;> omega)

theorem yearLen_pos (y : Nat) : 0 < yearLen y := by
  unfold yearLen; split <;> omega

theorem daysBeforeMonth_13 (y : Nat) : daysBeforeMonth y 13 = yearLen y := by
  show daysBeforeMonth y (12 + 1) = yearLen y
  simp only [daysBeforeMonth, monthLen, yearLen]
  split <;> omega

theorem ValidT_def (y m d : Nat) :
    ValidT (y, m, d) ↔ (1970 ≤ y ∧ 1 ≤ m ∧ m ≤ 12 ∧ 1 ≤ d ∧ d ≤ monthLen y m) :=
  Iff.rfl

theorem daysBeforeMonth_succ {y m : Nat} (h : 1 ≤ m) :
    daysBeforeMonth y (m + 1) = daysBeforeMonth y m + monthLen y m := by
  cases m with
  | zero => omega
  | succ k => rfl

theorem daysBeforeMonth_mono {y : Nat} {m m' : Nat} (h1 : 1 ≤ m) (h : m ≤ m') :
    daysBeforeMonth y m ≤ daysBeforeMonth y m' := by
  induction m', h using Nat.le_induction with
  | base => exact le_rfl
  | succ k hk ih =>
    rw [daysBeforeMonth_succ (by omega)]
    omega

theorem daysBeforeYear_zero {y : Nat} (h : y ≤ 1970) : daysBeforeYear y = 0 := by
  unfold daysBeforeYear
  rw [show y - 1970 = 0 by omega]
  rfl

theorem daysBeforeYear_succ {y : Nat} (h : 1970 ≤ y) :
    daysBeforeYear (y + 1) = daysBeforeYear y + yearLen y := by
  unfold daysBeforeYear
  rw [show y + 1 - 1970 = (y - 1970) + 1 by omega]
  show daysSinceEpochYear (y - 1970) + yearLen (1970 + (y - 1970)) = _
  rw [show 1970 + (y - 1970) = y by omega]

theorem daysBeforeYear_mono {y y' : Nat} (h : y ≤ y') :
    daysBeforeYear y ≤ daysBeforeYear y' := by
  induction y', h using Nat.le_induction with
  | base => exact le_rfl
  | succ k hk ih =>
    rcases Nat.lt_or_ge k 1970 with hl | hg
    · have h0 : daysBeforeYear y = 0 := daysBeforeYear_zero (by omega)
      rw [h0]
      exact Nat.zero_le _
    · rw [daysBeforeYear_succ hg]
      omega

theorem dayNumber_bounds {y m d : Nat} (hv : ValidT (y, m, d)) :
    daysBeforeYear y ≤ dayNumber y m d ∧ dayNumber y m d < daysBeforeYear (y + 1) := by
  rw [ValidT_def] at hv
  obtain ⟨hy, hm1, hm12, hd1, hdle⟩ := hv
  constructor
  · unfold dayNumber; omega
  · rw [daysBeforeYear_succ hy]
    unfold dayNumber
    have h1 : daysBeforeMonth y m + monthLen y m = daysBeforeMonth y (m + 1) :=
      (daysBeforeMonth_succ hm1).symm
    have h2 : daysBeforeMonth y (m + 1) ≤ daysBeforeMonth y 13 :=
      daysBeforeMonth_mono (by omega) (by omega)
    rw [daysBeforeMonth_13] at h2
    omega

theorem daysBeforeYear_strict {y y' : Nat} (h1970 : 1970 ≤ y) (h : y < y') :
    daysBeforeYear y < daysBeforeYear y' := by
  have h1 : daysBeforeYear (y + 1) ≤ daysBeforeYear y' := daysBeforeYear_mono (by omega)
  rw [daysBeforeYear_succ h1970] at h1
  have := yearLen_pos y
  omega

theorem dayNumber_inj {a b : Nat × Nat × Nat} (ha : ValidT a) (hb : ValidT b)
    (h : dayNumber a.1 a.2.1 a.2.2 = dayNumber b.1 b.2.1 b.2.2) : a = b := by
  obtain ⟨y, m, d⟩ := a
  obtain ⟨y', m', d'⟩ := b
  simp only at h
  have hba := dayNumber_bounds ha
  have hbb := dayNumber_bounds hb
  rw [ValidT_def] at ha hb
  obtain ⟨hy1970, hm1, hm12, hd1, hdle⟩ := ha
  obtain ⟨hy1970', hm1', hm12', hd1', hdle'⟩ := hb
  have hy : y = y' := by
    by_contra hne
    rcases Nat.lt_or_ge y y' with hl | hg
    · have := daysBeforeYear_mono (show y + 1 ≤ y' by omega)
      omega
    · have hl : y' < y := by omega
      have := daysBeforeYear_mono (show y' + 1 ≤ y by omega)
      omega
  subst hy
  unfold dayNumber at h
  have hm : m = m' := by
    by_contra hne
    rcases Nat.lt_or_ge m m' with hl | hg
    · have h1 : daysBeforeMonth y (m + 1) ≤ daysBeforeMonth y m' :=
        daysBeforeMonth_mono (by omega) (by omega)
      rw [daysBeforeMonth_succ hm1] at h1
      omega
    · have hl : m' < m := by omega
      have h1 : daysBeforeMonth y (m' + 1) ≤ daysBeforeMonth y m :=
        daysBeforeMonth_mono (by omega) (by omega)
      rw [daysBeforeMonth_succ hm1'] at h1
      omega
  subst hm
  have : d = d' := by omega
  simp [this]

theorem cfdMonthF_spec (y : Nat) (hy : 1970 ≤ y) :
    ∀ (k m n : Nat), 1 ≤ m → m + k = 12 → daysBeforeMonth y m + n < yearLen y →
      ValidT (cfdMonthF k y m n) ∧ (cfdMonthF k y m n).1 = y ∧
        daysBeforeMonth y (cfdMonthF k y m n).2.1 + ((cfdMonthF k y m n).2.2 - 1) =
          daysBeforeMonth y m + n := by
  intro k
  induction k with
  | zero =>
    intro m n hm1 hm12 hlt
    have hm : m = 12 := by omega
    subst hm
    have h13 : daysBeforeMonth y 13 = yearLen y := daysBeforeMonth_13 y
    have hsucc : daysBeforeMonth y 13 = daysBeforeMonth y 12 + monthLen y 12 :=
      daysBeforeMonth_succ (by omega)
    refine ⟨?_, rfl, ?_⟩
    · show ValidT (y, 12, n + 1)
      rw [ValidT_def]
      exact ⟨hy, by omega, by omega, by omega, by omega⟩
    · show daysBeforeMonth y 12 + (n + 1 - 1) = daysBeforeMonth y 12 + n
      omega
  | succ k ih =>
    intro m n hm1 hm12 hlt
    simp only [cfdMonthF]
    split
    · rename_i hn
      refine ⟨?_, rfl, ?_⟩
      · show ValidT (y, m, n + 1)
        rw [ValidT_def]
        exact ⟨hy, hm1, by omega, by omega, by omega⟩
      · show daysBeforeMonth y m + (n + 1 - 1) = daysBeforeMonth y m + n
        omega
    · rename_i hn
      have hmlt : daysBeforeMonth y (m + 1) + (n - monthLen y m) < yearLen y := by
        rw [daysBeforeMonth_succ hm1]; omega
      have := ih (m + 1) (n - monthLen y m) (by omega) (by omega) hmlt
      refine ⟨this.1, this.2.1, ?_⟩
      rw [this.2.2, daysBeforeMonth_succ hm1]
      omega

theorem cfdYear_spec : ∀ (n y : Nat), 1970 ≤ y →
    ValidT (cfdYear y n) ∧ y ≤ (cfdYear y n).1 ∧
      dayNumber (cfdYear y n).1 (cfdYear y n).2.1 (cfdYear y n).2.2 =
        daysBeforeYear y + n := by
  intro n
  induction n using Nat.strong_induction_on with
  | _ n ih =>
    intro y hy
    rw [cfdYear_eq]
    split
    · rename_i hn
      have hsp := cfdMonthF_spec y hy 11 1 n (by omega) (by omega)
        (by simpa [daysBeforeMonth] using hn)
      refine ⟨hsp.1, le_of_eq hsp.2.1.symm, ?_⟩
      unfold dayNumber
      rw [hsp.2.1]
      have h2 := hsp.2.2
      simp only [daysBeforeMonth] at h2
      omega
    · rename_i hn
      have hyl := yearLen_pos y
      have hlt : n - yearLen y < n := by omega
      have := ih (n - yearLen y) hlt (y + 1) (by omega)
      refine ⟨this.1, by omega, ?_⟩
      rw [this.2.2, daysBeforeYear_succ hy]
      omega

/-- civilFromDays produces a valid civil triple whose day number is the input. -/
theorem civilFromDays_spec (n : Nat) :
    ValidT (civilFromDays n) ∧
      dayNumber (civilFromDays n).1 (civilFromDays n).2.1 (civilFromDays n).2.2 = n := by
  have h := cfdYear_spec n 1970 (by omega)
  have h0 : daysBeforeYear 1970 = 0 := daysBeforeYear_zero (le_refl _)
  refine ⟨h.1, ?_⟩
  rw [show civilFromDays n = cfdYear 1970 n from rfl, h.2.2, h0]
  omega

/-- Projection form of dayNumber_bounds. -/
theorem dayNumber_bounds_t {t : Nat × Nat × Nat} (hv : ValidT t) :
    daysBeforeYear t.1 ≤ dayNumber t.1 t.2.1 t.2.2 ∧
      dayNumber t.1 t.2.1 t.2.2 < daysBeforeYear (t.1 + 1) := by
  obtain ⟨y, m, d⟩ := t
  exact dayNumber_bounds hv

/-- civilFromDays inverts dayNumber on valid triples. -/
theorem civil_dayNumber {t : Nat × Nat × Nat} (hv : ValidT t) :
    civilFromDays (dayNumber t.1 t.2.1 t.2.2) = t := by
  have h := civilFromDays_spec (dayNumber t.1 t.2.1 t.2.2)
  exact dayNumber_inj h.1 hv h.2

theorem civilFromDays_year_le {n : Nat} {y : Nat} (_hy : 1970 ≤ y)
    (h : n < daysBeforeYear (y + 1)) : (civilFromDays n).1 ≤ y := by
  have hs := civilFromDays_spec n
  by_contra hc
  have hb := dayNumber_bounds_t hs.1
  have h2 := hs.2
  have := daysBeforeYear_mono (show y + 1 ≤ (civilFromDays n).1 by omega)
  omega

theorem civilFromDays_year_ge {n : Nat} {y : Nat} (h : daysBeforeYear y ≤ n) (_hy : 1970 ≤ y) :
    y ≤ (civilFromDays n).1 := by
  have hs := civilFromDays_spec n
  by_contra hc
  have hb := dayNumber_bounds_t hs.1
  have h2 := hs.2
  have h1 : (civilFromDays n).1 + 1 ≤ y := by omega
  have := daysBeforeYear_mono h1
  omega


/-! ## Claim C1: optimistic concurrency of the in-memory append -/

/-- Claim C1: append(projectId, expectedVersion, events) fails with a
ConcurrencyError if and only if expectedVersion differs from the project's
current log length, and on failure the log is unchanged (the error branch
returns no new store and the error carries the current length); on success
each appended event is assigned version = priorLength + index + 1, the log
grows by exactly events.length, and other projects are untouched; an empty
events list succeeds as a no-op returning the store unchanged, but still
fails when expectedVersion does not match. -/
theorem claim_C1 (st : InMemoryStore) (pid : Str) (v : Int) (evs : List DomainEvent) :
    ((∃ e, ES.append st pid v evs = .error e) ↔ v ≠ ((ES.loadByProject st pid).length : Int)) ∧
    (∀ e, ES.append st pid v evs = .error e →
      e = ⟨pid, v, (ES.loadByProject st pid).length⟩) ∧
    (v = ((ES.loadByProject st pid).length : Int) →
      ∃ st', ES.append st pid v evs = .ok st' ∧
        ES.loadByProject st' pid =
          ES.loadByProject st pid ++
            evs.mapIdx (fun index e =>
              { e with version := ((ES.loadByProject st pid).length : Int) + index + 1 }) ∧
        (ES.loadByProject st' pid).length = (ES.loadByProject st pid).length + evs.length ∧
        (∀ q, q ≠ pid → ES.loadByProject st' q = ES.loadByProject st q)) ∧
    (evs = [] → v = ((ES.loadByProject st pid).length : Int) →
      ES.append st pid v evs = .ok st) := by
  by_cases hv : ((st.byProject pid).length : Int) = v
  · refine ⟨⟨?_, ?_⟩, ?_, ?_, ?_⟩
    · rintro ⟨e, he⟩
      rw [ES.append, if_neg (by simpa using hv)] at he
      split at he <;> simp at he
    · intro hne
      exact absurd hv.symm (by simpa [ES.loadByProject] using hne)
    · intro e he
      rw [ES.append, if_neg (by simpa using hv)] at he
      split at he <;> simp at he
    · intro hveq
      by_cases hevs : evs = []
      · subst hevs
        refine ⟨st, ?_, by simp [ES.loadByProject], by simp, fun q _ => rfl⟩
        rw [ES.append, if_neg (by simpa using hv), if_pos rfl]
      · refine ⟨⟨fun p => if p = pid then st.byProject pid ++
          evs.mapIdx (fun index e =>
            { e with version := ((st.byProject pid).length : Int) + index + 1 })
          else st.byProject p⟩, ?_, ?_, ?_, ?_⟩
        · rw [ES.append, if_neg (by simpa using hv), if_neg hevs]
        · simp [ES.loadByProject]
        · simp [ES.loadByProject]
        · intro q hq
          simp [ES.loadByProject, hq]
    · intro hevs hveq
      subst hevs
      rw [ES.append, if_neg (by simpa using hv), if_pos rfl]
  · have hcond : ((st.byProject pid).length : Int) ≠ v := hv
    refine ⟨⟨?_, ?_⟩, ?_, ?_, ?_⟩
    · intro _
      simpa [ES.loadByProject] using fun hc => hv hc.symm
    · intro _
      exact ⟨_, by rw [ES.append, if_pos hcond]⟩
    · intro e he
      rw [ES.append, if_pos hcond] at he
      simpa [ES.loadByProject] using (Except.error.injEq _ _).mp he.symm
    · intro hveq
      exact absurd hveq.symm (by simpa [ES.loadByProject] using hcond)
    · intro _ hveq
      exact absurd hveq.symm (by simpa [ES.loadByProject] using hcond)

/-- Witness for C1: with an empty store, appending with expectedVersion 1
fails with a ConcurrencyError. -/
theorem claim_C1_witness :
    ∃ e, ES.append ⟨fun _ => []⟩ (dk ("p")) 1 [] = .error e :=
  (claim_C1 ⟨fun _ => []⟩ (dk ("p")) 1 []).1.mpr (by decide)

/-! ## Claim C3: lifecycle transition functions -/

/-- Claim C3: each transition function appends exactly one event of the
corresponding type to the unchanged input list (pure, input kept as the
result's head segment) when the part's current lifecycle state is in the
operation's allow-list (approve/complete/snooze from Planned or Active,
reopen from Completed or Approved); otherwise it fails with an
InvariantViolation carrying the current state and the allow-list, appending
nothing. -/
theorem claim_C3 (events : List DomainEvent) (partId : Str) (ts : Int) (nd : Str) :
    (projectLifecycleState events partId ∈ VALID_APPROVE →
      approvePart events partId ts =
        .ok (events ++ [{ type := .PartApproved, partId := partId, timestamp := ts }])) ∧
    (projectLifecycleState events partId ∉ VALID_APPROVE →
      approvePart events partId ts =
        .error ⟨projectLifecycleState events partId, VALID_APPROVE⟩) ∧
    (projectLifecycleState events partId ∈ VALID_COMPLETE →
      completePart events partId ts =
        .ok (events ++ [{ type := .PartCompleted, partId := partId, timestamp := ts }])) ∧
    (projectLifecycleState events partId ∉ VALID_COMPLETE →
      completePart events partId ts =
        .error ⟨projectLifecycleState events partId, VALID_COMPLETE⟩) ∧
    (projectLifecycleState events partId ∈ VALID_SNOOZE →
      snoozePart events partId nd ts =
        .ok (events ++
          [{ type := .PartSnoozed, partId := partId, notificationDate := some nd, timestamp := ts }])) ∧
    (projectLifecycleState events partId ∉ VALID_SNOOZE →
      snoozePart events partId nd ts =
        .error ⟨projectLifecycleState events partId, VALID_SNOOZE⟩) ∧
    (projectLifecycleState events partId ∈ VALID_REOPEN →
      reopenPart events partId ts =
        .ok (events ++ [{ type := .PartReopened, partId := partId, timestamp := ts }])) ∧
    (projectLifecycleState events partId ∉ VALID_REOPEN →
      reopenPart events partId ts =
        .error ⟨projectLifecycleState events partId, VALID_REOPEN⟩) := by
  refine ⟨?_, ?_, ?_, ?_, ?_, ?_, ?_, ?_⟩ <;> intro h <;>
    simp [approvePart, completePart, snoozePart, reopenPart, assertValidTransition,
      h, Except.bind, bind, pure, Except.pure]

/-- Witness for C3: after a reopen event the part is Active, so approvePart
succeeds and appends exactly the PartApproved event. -/
theorem claim_C3_witness :
    approvePart [{ type := .PartReopened, partId := dk ("p1"), timestamp := 1 }]
        (dk ("p1")) 2 =
      .ok ([{ type := .PartReopened, partId := dk ("p1"), timestamp := 1 }] ++
        [{ type := .PartApproved, partId := dk ("p1"), timestamp := 2 }]) :=
  (claim_C3 [{ type := .PartReopened, partId := dk ("p1"), timestamp := 1 }]
    (dk ("p1")) 2 (dk ("2025-02-25"))).1 (by decide)

/-! ## Lemmas: the stable timestamp sort -/

theorem insertByTs_perm (e : DomainEvent) (l : List DomainEvent) :
    (insertByTs e l).Perm (e :: l) := by
  induction l with
  | nil => simp [insertByTs]
  | cons x xs ih =>
    simp only [insertByTs]
    split
    · exact (ih.cons x).trans (List.Perm.swap e x xs)
    · exact List.Perm.refl _

theorem sortByTs_perm (l : List DomainEvent) : (sortByTs l).Perm l := by
  induction l with
  | nil => simp [sortByTs]
  | cons x xs ih =>
    have : sortByTs (x :: xs) = insertByTs x (sortByTs xs) := rfl
    rw [this]
    exact (insertByTs_perm x (sortByTs xs)).trans (ih.cons x)

theorem insertByTs_sorted {e : DomainEvent} {l : List DomainEvent}
    (h : List.Pairwise (fun a b => a.timestamp ≤ b.timestamp) l) :
    List.Pairwise (fun a b => a.timestamp ≤ b.timestamp) (insertByTs e l) := by
  induction l with
  | nil => simp [insertByTs]
  | cons x xs ih =>
    rw [List.pairwise_cons] at h
    simp only [insertByTs]
    split
    · rename_i hx
      rw [List.pairwise_cons]
      refine ⟨?_, ih h.2⟩
      intro y hy
      rcases List.mem_cons.mp ((insertByTs_perm e xs).mem_iff.mp hy) with hye | hyxs
      · subst hye; omega
      · exact h.1 y hyxs
    · rename_i hx
      rw [List.pairwise_cons]
      refine ⟨?_, List.pairwise_cons.mpr h⟩
      intro y hy
      rcases List.mem_cons.mp hy with hyx | hyxs
      · subst hyx; omega
      · have := h.1 y hyxs
        omega

theorem sortByTs_sorted (l : List DomainEvent) :
    List.Pairwise (fun a b => a.timestamp ≤ b.timestamp) (sortByTs l) := by
  induction l with
  | nil => simp [sortByTs]
  | cons x xs ih => exact insertByTs_sorted ih

theorem insertByTs_filter_ts (e : DomainEvent) (l : List DomainEvent) (t : Int) :
    (insertByTs e l).filter (fun x => decide (x.timestamp = t)) =
      if e.timestamp = t then e :: l.filter (fun x => decide (x.timestamp = t))
      else l.filter (fun x => decide (x.timestamp = t)) := by
  induction l with
  | nil => simp [insertByTs, List.filter_cons]
  | cons x xs ih =>
    simp only [insertByTs]
    split
    · rename_i hx
      by_cases het : e.timestamp = t
      · have hxt : ¬ (x.timestamp = t) := by omega
        simp only [List.filter, het, if_pos het, hxt]
        simp only [decide_eq_true_eq] at ih ⊢
        simp [hxt, ih, het]
      · simp only [List.filter, if_neg het]
        by_cases hxt : x.timestamp = t
        · simp [hxt, ih, het]
        · simp [hxt, ih, het]
    · by_cases het : e.timestamp = t
      · simp [List.filter, het]
      · simp [List.filter, het]

theorem sortByTs_filter_ts (l : List DomainEvent) (t : Int) :
    (sortByTs l).filter (fun x => decide (x.timestamp = t)) =
      l.filter (fun x => decide (x.timestamp = t)) := by
  induction l with
  | nil => rfl
  | cons x xs ih =>
    have hstep : sortByTs (x :: xs) = insertByTs x (sortByTs xs) := rfl
    rw [hstep, insertByTs_filter_ts]
    by_cases hxt : x.timestamp = t
    · simp [hxt, ih, List.filter]
    · simp [hxt, ih, List.filter]

/-! ## Claim C2: lifecycle replay -/

/-- Claim C2: projectLifecycleState replays only that part's events, in
timestamp order with ties kept in original sequence order (witnessed by a
replay list that is a permutation of the part's events, is sorted by
timestamp, and preserves the original order of equal-timestamp events),
folding from Planned with PartApproved giving Approved, PartCompleted
giving Completed, PartReopened giving Active and PartSnoozed giving Active;
the empty list gives Planned, and a fold ending in Planned with at least
one event present is normalized to Active. -/
theorem claim_C2 (events : List DomainEvent) (partId : Str) :
    (projectLifecycleState [] partId = .Planned) ∧
    (∀ s e, e.type = .PartApproved → lcStep s e = .Approved) ∧
    (∀ s e, e.type = .PartCompleted → lcStep s e = .Completed) ∧
    (∀ s e, e.type = .PartReopened → lcStep s e = .Active) ∧
    (∀ s e, e.type = .PartSnoozed → lcStep s e = .Active) ∧
    (∃ s, s.Perm (events.filter (fun e => decide (e.partId = partId))) ∧
      List.Pairwise (fun a b => a.timestamp ≤ b.timestamp) s ∧
      (∀ t, s.filter (fun e => decide (e.timestamp = t)) =
        (events.filter (fun e => decide (e.partId = partId))).filter
          (fun e => decide (e.timestamp = t))) ∧
      projectLifecycleState events partId =
        (if s.foldl lcStep .Planned = .Planned ∧ s ≠ [] then .Active
          else s.foldl lcStep .Planned)) := by
  refine ⟨rfl, ?_, ?_, ?_, ?_, ?_⟩
  · intro s e h; simp [lcStep, h]
  · intro s e h; simp [lcStep, h]
  · intro s e h; simp [lcStep, h]
  · intro s e h; simp [lcStep, h]
  · exact ⟨sortByTs (events.filter (fun e => decide (e.partId = partId))),
      sortByTs_perm _, sortByTs_sorted _, fun t => sortByTs_filter_ts _ t, rfl⟩

/-- Witness for C2: the step table applied at a concrete event. -/
theorem claim_C2_witness :
    lcStep .Planned { type := .PartApproved, partId := dk ("p1"), timestamp := 7 } =
      .Approved :=
  (claim_C2 [] (dk ("p1"))).2.1 .Planned
    { type := .PartApproved, partId := dk ("p1"), timestamp := 7 } rfl

/-! ## Claim C6: compaction of the file-backed store -/

/-- Counterexample to C6 as stated: with log events at timestamps 1000 and
3000 and a snapshot cutoff of 2000, compact truncates the whole log, so a
subsequent loadByProject returns [] even though the event at 3000 lies
strictly past the cutoff and the claim requires it to be retained. -/
theorem claim_C6_counterexample :
    FS.compact
        ⟨[{ type := .PartApproved, partId := dk ("a"), timestamp := 1000 },
          { type := .PartReopened, partId := dk ("a"), timestamp := 3000 }], none⟩
        (dk ("p")) ⟨dk ("p"), 2000, []⟩ =
      .ok ⟨[], some ⟨dk ("p"), 2000, []⟩⟩ ∧
    FS.loadByProject ⟨[], some ⟨dk ("p"), 2000, []⟩⟩ = [] ∧
    ([{ type := .PartApproved, partId := dk ("a"), timestamp := 1000 },
      { type := .PartReopened, partId := dk ("a"), timestamp := 3000 }] :
        List DomainEvent).filter (fun e => decide ((2000 : Int) < e.timestamp)) =
      [{ type := .PartReopened, partId := dk ("a"), timestamp := 3000 }] ∧
    ([] : List DomainEvent) ≠
      [{ type := .PartReopened, partId := dk ("a"), timestamp := 3000 }] := by
  refine ⟨rfl, rfl, by decide, by decide⟩

/-- Claim C6 (amended): compact succeeds exactly when the snapshot's
projectId matches, and then replaces the store state with an empty log plus
the snapshot, so loadByProject afterwards returns the empty list (rather
than retaining log events past the cutoff); appending further events after
compaction and reloading yields exactly those new events whose timestamp is
strictly greater than the snapshot's lastEventTimestamp. -/
theorem claim_C6_amended (st : FileProjectState) (pid : Str) (snap : ProjectorSnapshot)
    (st' : FileProjectState) (h : FS.compact st pid snap = .ok st') :
    snap.projectId = pid ∧ st' = ⟨[], some snap⟩ ∧ FS.loadByProject st' = [] ∧
    (∀ evs, FS.loadByProject (FS.append st' evs) =
      evs.filter (fun e => decide (snap.lastEventTimestamp < e.timestamp))) := by
  unfold FS.compact at h
  split at h
  · exact absurd h (by simp)
  · rename_i hid
    have hpid : snap.projectId = pid := by
      by_contra hc
      exact hid hc
    have hst : st' = ⟨[], some snap⟩ := by
      simpa using h.symm
    subst hst
    refine ⟨hpid, rfl, rfl, ?_⟩
    intro evs
    by_cases hevs : evs = []
    · subst hevs; rfl
    · simp [FS.append, FS.loadByProject, hevs]

/-- Witness for C6 (amended): a successful compaction at concrete inputs. -/
theorem claim_C6_witness :
    (dk ("p") : Str) = dk ("p") ∧
      (⟨[], some ⟨dk ("p"), 2000, []⟩⟩ : FileProjectState) = ⟨[], some ⟨dk ("p"), 2000, []⟩⟩ ∧
      FS.loadByProject ⟨[], some ⟨dk ("p"), 2000, []⟩⟩ = [] ∧
      (∀ evs, FS.loadByProject (FS.append ⟨[], some ⟨dk ("p"), 2000, []⟩⟩ evs) =
        evs.filter (fun e => decide ((2000 : Int) < e.timestamp))) :=
  claim_C6_amended
    ⟨[{ type := .PartApproved, partId := dk ("a"), timestamp := 1000 }], none⟩
    (dk ("p")) ⟨dk ("p"), 2000, []⟩ ⟨[], some ⟨dk ("p"), 2000, []⟩⟩ rfl

/-! ## Claim C9: malformed DateKey handling -/

/-- Claim C9 describes the spec's stated failure mode, but the code violates
it: parseDateKey applies no validation to "2025-13-45" (month 13, day 45),
and isWorkingDay silently answers about the Date.UTC-normalized date
2026-02-14 (a Saturday, hence false) instead of failing fast with a
validation error. -/
theorem claim_C9_code_bug :
    parseDateKey (dk ("2025-13-45")) = (some 2025, some 13, some 45) ∧
    jsDateUTCdays 2025 12 45 = some (dayNumber 2026 2 14) ∧
    isWorkingDayE (dk ("2025-13-45")) (swedishCalendar utcTz) = some false := by
  refine ⟨by decide, by decide, by decide⟩

/-! ## Lemmas: canonical date keys and nextDay -/

theorem canon_inj {a b : Nat × Nat × Nat} (h : canon a = canon b) : a = b := by
  obtain ⟨y, m, d⟩ := a
  obtain ⟨y', m', d'⟩ := b
  have := format_inj h
  simp only [Prod.mk.injEq]
  exact ⟨this.1, this.2.1, this.2.2⟩

theorem jsDateUTCdays_valid {y m d : Nat} (hv : ValidT (y, m, d)) :
    jsDateUTCdays (y : Int) ((m : Int) - 1) (d : Int) = some (dayNumber y m d) := by
  rw [ValidT_def] at hv
  obtain ⟨hy, hm1, hm12, hd1, hdle⟩ := hv
  have hm : ((m : Int) - 1) = ((m - 1 : Nat) : Int) := by omega
  unfold jsDateUTCdays
  rw [hm]
  have hfd : ((m - 1 : Nat) : Int).fdiv 12 = ((0 : Nat) : Int) := by
    interval_cases m <;> decide
  have hem : ((m - 1 : Nat) : Int).emod 12 = ((m - 1 : Nat) : Int) := by
    interval_cases m <;> decide
  rw [hfd, hem]
  rw [if_neg (by push_cast; omega : ¬ ((y : Int) + ((0 : Nat) : Int) < 1970 ∨ (d : Int) < 1))]
  congr 1
  have h1 : ((y : Int) + ((0 : Nat) : Int)).toNat = y := by omega
  have h2 : (((m - 1 : Nat) : Int)).toNat = m - 1 := by omega
  have h3 : ((d : Int)).toNat = d := by omega
  rw [h1, h2, h3, show m - 1 + 1 = m by omega]

theorem nextDay_canon {t : Nat × Nat × Nat} (hv : ValidT t) :
    nextDay (canon t) =
      some (canon (civilFromDays (dayNumber t.1 t.2.1 t.2.2 + 1))) := by
  obtain ⟨y, m, d⟩ := t
  unfold canon nextDay
  rw [show formatDateKey (y, m, d).1 (y, m, d).2.1 (y, m, d).2.2 =
    formatDateKey y m d from rfl]
  rw [parse_format]
  simp only
  rw [jsDateUTCdays_valid hv]
  rfl

theorem year_le_of_dayNumber_le {a b : Nat × Nat × Nat} (ha : ValidT a) (hb : ValidT b)
    (h : dayNumber a.1 a.2.1 a.2.2 ≤ dayNumber b.1 b.2.1 b.2.2) : a.1 ≤ b.1 := by
  by_contra hc
  have hbnd_a := dayNumber_bounds_t ha
  have hbnd_b := dayNumber_bounds_t hb
  have h1 : b.1 + 1 ≤ a.1 := by omega
  have := daysBeforeYear_mono h1
  omega

/-- Lexicographic order on valid triples implies day-number order. -/
theorem dayNumber_lt_of_lex {a b : Nat × Nat × Nat} (ha : ValidT a) (hb : ValidT b)
    (h : a.1 < b.1 ∨ (a.1 = b.1 ∧ (a.2.1 < b.2.1 ∨ (a.2.1 = b.2.1 ∧ a.2.2 < b.2.2)))) :
    dayNumber a.1 a.2.1 a.2.2 < dayNumber b.1 b.2.1 b.2.2 := by
  obtain ⟨y, m, d⟩ := a
  obtain ⟨y', m', d'⟩ := b
  show dayNumber y m d < dayNumber y' m' d'
  have hbnd_a := dayNumber_bounds ha
  have hbnd_b := dayNumber_bounds hb
  rw [ValidT_def] at ha hb
  obtain ⟨hy, hm1, hm12, hd1, hdle⟩ := ha
  obtain ⟨hy', hm1', hm12', hd1', hdle'⟩ := hb
  have h2 : y < y' ∨ (y = y' ∧ (m < m' ∨ (m = m' ∧ d < d'))) := h
  clear h
  rcases h2 with hyy | ⟨hyy, h⟩
  · have := daysBeforeYear_mono (show y + 1 ≤ y' by omega)
    omega
  · subst hyy
    unfold dayNumber
    rcases h with hmm | ⟨hmm, hdd⟩
    · have h1 : daysBeforeMonth y (m + 1) ≤ daysBeforeMonth y m' :=
        daysBeforeMonth_mono (by omega) (by omega)
      rw [daysBeforeMonth_succ hm1] at h1
      omega
    · subst hmm
      omega

theorem dayNumber_lt_imp_lex {a b : Nat × Nat × Nat} (ha : ValidT a) (hb : ValidT b)
    (h : dayNumber a.1 a.2.1 a.2.2 < dayNumber b.1 b.2.1 b.2.2) :
    a.1 < b.1 ∨ (a.1 = b.1 ∧ (a.2.1 < b.2.1 ∨ (a.2.1 = b.2.1 ∧ a.2.2 < b.2.2))) := by
  by_contra hc
  push_neg at hc
  have htotal : a = b ∨
      (b.1 < a.1 ∨ (b.1 = a.1 ∧ (b.2.1 < a.2.1 ∨ (b.2.1 = a.2.1 ∧ b.2.2 < a.2.2)))) := by
    obtain ⟨y, m, d⟩ := a
    obtain ⟨y', m', d'⟩ := b
    simp only [Prod.mk.injEq] at hc ⊢
    omega
  rcases htotal with heq | hlex
  · rw [heq] at h
    omega
  · have := dayNumber_lt_of_lex hb ha hlex
    omega

/-- For valid triples with four-digit years, day-number order decides the
JS string order of their canonical keys. -/
theorem strLt_canon {a b : Nat × Nat × Nat} (ha : ValidT a) (hb : ValidT b)
    (hya : a.1 ≤ 9999) (hyb : b.1 ≤ 9999)
    (h : dayNumber a.1 a.2.1 a.2.2 < dayNumber b.1 b.2.1 b.2.2) :
    strLt (canon a) (canon b) = true := by
  have hma : a.2.1 ≤ 99 := by
    have := ha.2.2.1; omega
  have hmb : b.2.1 ≤ 99 := by
    have := hb.2.2.1; omega
  have hda : a.2.2 ≤ 99 := by
    have h1 := ha.2.2.2.2
    have h2 : monthLen a.1 a.2.1 ≤ 31 := monthLen_le
    omega
  have hdb : b.2.2 ≤ 99 := by
    have h1 := hb.2.2.2.2
    have h2 : monthLen b.1 b.2.1 ≤ 31 := monthLen_le
    omega
  unfold canon
  rw [strLt_format hya hyb hma hmb hda hdb]
  simpa using dayNumber_lt_imp_lex ha hb h

theorem canon_ne_of_dayNumber_lt {a b : Nat × Nat × Nat} (_ha : ValidT a) (_hb : ValidT b)
    (h : dayNumber a.1 a.2.1 a.2.2 < dayNumber b.1 b.2.1 b.2.2) :
    canon a ≠ canon b := by
  intro hc
  rw [canon_inj hc] at h
  omega

/-! ## The add-walk / diff-walk simulation (calendar.ts) -/

/-- Unfoldings of the diff loop. -/
theorem diffGo_zero (cal : ProjectCalendar) (target : Str) (delta : Int)
    (cur : Str) (acc : Int) :
    diffGo cal target delta 0 cur acc =
      if cur = target then .ok acc else .spin := rfl

theorem diffGo_succ (cal : ProjectCalendar) (target : Str) (delta : Int)
    (fuel : Nat) (cur : Str) (acc : Int) :
    diffGo cal target delta (fuel + 1) cur acc =
      if cur = target then .ok acc
      else
        match isWorkingDayE cur cal with
        | none => .err
        | some w =>
          match nextDay cur with
          | none => .err
          | some c2 => diffGo cal target delta fuel c2 (if w then acc + delta else acc) :=
  rfl

/-- How addWorkingDays' loop relates to diffWorkingDays' forward loop: if
the add loop from a valid date finishes with r working days consumed, the
result is a later valid date, and (when r is at least 1 and the years stay
four-digit) the diff loop from the start date toward it terminates having
counted acc + r - 1 + (1 if the start date is working). -/
theorem addGo_sim (cal : ProjectCalendar) :
    ∀ (fuel : Nat) (t : Nat × Nat × Nat) (r : Nat) (e : Str),
      ValidT t →
      addGo cal fuel (canon t) r = .ok e →
      ∃ u : Nat × Nat × Nat, e = canon u ∧ ValidT u ∧
        t.1 ≤ u.1 ∧
        dayNumber t.1 t.2.1 t.2.2 ≤ dayNumber u.1 u.2.1 u.2.2 ∧
        (r = 0 → u = t) ∧
        (1 ≤ r → dayNumber t.1 t.2.1 t.2.2 < dayNumber u.1 u.2.1 u.2.2) ∧
        (1 ≤ r → u.1 ≤ 9999 → ∀ w : Bool, isWorkingDayE (canon t) cal = some w →
          ∀ acc : Int, ∃ j, diffGo cal (canon u) 1 j (canon t) acc =
            .ok (acc + (r : Int) - 1 + (if w then 1 else 0))) := by
  intro fuel
  induction fuel with
  | zero =>
    intro t r e hv he
    match r, he with
    | 0, he =>
      refine ⟨t, ?_, hv, le_rfl, le_rfl, fun _ => rfl, by omega, by omega⟩
      have h0 : addGo cal 0 (canon t) 0 = .ok (canon t) := rfl
      rw [h0] at he
      exact (FRes.ok.injEq _ _).mp he.symm
  | succ f ih =>
    intro t r e hv he
    match r with
    | 0 =>
      refine ⟨t, ?_, hv, le_rfl, le_rfl, fun _ => rfl, by omega, by omega⟩
      have h0 : addGo cal (f + 1) (canon t) 0 = .ok (canon t) := rfl
      rw [h0] at he
      exact (FRes.ok.injEq _ _).mp he.symm
    | r' + 1 =>
      have hstep : addGo cal (f + 1) (canon t) (r' + 1) =
          match nextDay (canon t) with
          | none => .err
          | some c2 =>
            match isWorkingDayE c2 cal with
            | none => .err
            | some w => addGo cal f c2 (if w then r' else r' + 1) := rfl
      rw [hstep, nextDay_canon hv] at he
      set t2 := civilFromDays (dayNumber t.1 t.2.1 t.2.2 + 1) with ht2
      have hv2 : ValidT t2 := (civilFromDays_spec _).1
      have hDN2 : dayNumber t2.1 t2.2.1 t2.2.2 = dayNumber t.1 t.2.1 t.2.2 + 1 :=
        (civilFromDays_spec _).2
      dsimp only at he
      cases hw2 : isWorkingDayE (canon t2) cal with
      | none =>
        rw [hw2] at he
        simp at he
      | some w2 =>
        rw [hw2] at he
        dsimp only at he
        obtain ⟨u, heu, hvu, hyu, hDNu, hr0, hr1, hdiff⟩ := ih t2 _ e hv2 he
        have hyt2 : t.1 ≤ t2.1 := year_le_of_dayNumber_le hv hv2 (by omega)
        have hDNlt : dayNumber t.1 t.2.1 t.2.2 < dayNumber u.1 u.2.1 u.2.2 := by
          cases w2 with
          | true =>
            rcases Nat.eq_zero_or_pos r' with h0 | hpos
            · have hut2 : u = t2 := hr0 (by simp [h0])
              rw [hut2]
              omega
            · have := hr1 (by simp; omega)
              omega
          | false =>
            have := hr1 (by simp)
            omega
        refine ⟨u, heu, hvu, by omega, by omega, by omega, fun _ => hDNlt, ?_⟩
        intro _ hy9999 w hw acc
        have hneq : canon t ≠ canon u := canon_ne_of_dayNumber_lt hv hvu hDNlt
        cases w2 with
        | true =>
          rcases Nat.eq_zero_or_pos r' with h0 | hpos
          · have hut2 : u = t2 := hr0 (by simp [h0])
            subst h0
            refine ⟨1, ?_⟩
            rw [show (1 : Nat) = 0 + 1 from rfl, diffGo_succ, if_neg hneq, hw]
            dsimp only
            rw [nextDay_canon hv, ← ht2, ← hut2]
            dsimp only
            rw [diffGo_zero, if_pos rfl]
            cases w <;> simp
          · obtain ⟨j2, hj2⟩ := hdiff (by simpa using hpos) hy9999 true hw2
              (if w then acc + 1 else acc)
            refine ⟨j2 + 1, ?_⟩
            rw [diffGo_succ, if_neg hneq, hw]
            dsimp only
            rw [nextDay_canon hv, ← ht2]
            dsimp only
            rw [hj2]
            cases w <;> simp <;> omega
        | false =>
          obtain ⟨j2, hj2⟩ := hdiff (by simp) hy9999 false hw2 (if w then acc + 1 else acc)
          refine ⟨j2 + 1, ?_⟩
          rw [diffGo_succ, if_neg hneq, hw]
          dsimp only
          rw [nextDay_canon hv, ← ht2]
          dsimp only
          rw [hj2]
          cases w <;> simp
          omega

/-! ## Claim C5: the diff/add round trip -/

/-- Counterexample to C5 as stated: starting from Saturday 2025-02-15 (a
non-working day of the default Swedish calendar) with n = 1,
addWorkingDays lands on Monday 2025-02-17, but diffWorkingDays counts the
working days in [2025-02-15, 2025-02-17) — Saturday and Sunday — giving 0,
not 1. -/
theorem claim_C5_counterexample :
    addWorkingDaysF 10 (dk ("2025-02-15")) 1 (swedishCalendar utcTz) =
      .ok (dk ("2025-02-17")) ∧
    diffWorkingDaysF 10 (dk ("2025-02-15")) (dk ("2025-02-17")) (swedishCalendar utcTz) =
      .ok 0 ∧
    (FRes.ok (0 : Int)) ≠ (FRes.ok (1 : Int)) := by
  refine ⟨by decide, by decide, by decide⟩

/-- Claim C5 (amended): the round trip diffWorkingDays(start,
addWorkingDays(start, n, cal), cal) = n holds for every n at or above 0 and
every calendar whenever the start date is itself a working day (for a
non-working start and n at least 1 the difference comes out one short,
as the counterexample shows); stated over valid four-digit-year date keys,
with the source loops fuel-indexed: whenever addWorkingDays terminates with
a result, diffWorkingDays terminates with n. -/
theorem claim_C5_amended (cal : ProjectCalendar) (t u : Nat × Nat × Nat) (n fuel : Nat)
    (hvt : ValidT t) (hvu : ValidT u) (hyu : u.1 ≤ 9999)
    (hw : isWorkingDayE (canon t) cal = some true)
    (hadd : addWorkingDaysF fuel (canon t) (n : Int) cal = .ok (canon u)) :
    ∃ j, diffWorkingDaysF j (canon t) (canon u) cal = .ok (n : Int) := by
  unfold addWorkingDaysF at hadd
  rw [if_neg (by omega)] at hadd
  have htn : ((n : Int)).toNat = n := by omega
  rw [htn] at hadd
  obtain ⟨u', heu, hvu', hyu', hDNu, hr0, hr1, hdiff⟩ :=
    addGo_sim cal fuel t n (canon u) hvt hadd
  have huu : u' = u := canon_inj heu.symm
  subst huu
  rcases Nat.eq_zero_or_pos n with h0 | hpos
  · subst h0
    refine ⟨0, ?_⟩
    unfold diffWorkingDaysF
    rw [hr0 rfl, if_pos rfl]
    simp
  · have hDNlt := hr1 hpos
    have hne := canon_ne_of_dayNumber_lt hvt hvu hDNlt
    have hlt := strLt_canon hvt hvu (by omega) hyu hDNlt
    obtain ⟨j, hj⟩ := hdiff hpos hyu true hw 0
    refine ⟨j, ?_⟩
    unfold diffWorkingDaysF
    rw [if_neg hne, if_pos hlt, hj]
    congr 1
    simp

/-- Witness for C5 (amended): Monday 2025-02-17 is a working day; adding one
working day reaches Tuesday 2025-02-18, and the diff walk returns 1. -/
theorem claim_C5_witness :
    ∃ j, diffWorkingDaysF j (canon (2025, 2, 17)) (canon (2025, 2, 18))
      (swedishCalendar utcTz) = .ok (1 : Int) :=
  claim_C5_amended (swedishCalendar utcTz) (2025, 2, 17) (2025, 2, 18) 1 10
    (by decide) (by decide) (by decide) (by decide) (by decide)

/-! ## Claim C4: the cutoff semantics of computePartState -/

theorem strLt_canon_eq {a b : Nat × Nat × Nat} (ha : ValidT a) (hb : ValidT b)
    (hya : a.1 ≤ 9999) (hyb : b.1 ≤ 9999) :
    strLt (canon a) (canon b) =
      decide (dayNumber a.1 a.2.1 a.2.2 < dayNumber b.1 b.2.1 b.2.2) := by
  have hma : a.2.1 ≤ 99 := by have := ha.2.2.1; omega
  have hmb : b.2.1 ≤ 99 := by have := hb.2.2.1; omega
  have hda : a.2.2 ≤ 99 := by
    have h1 := ha.2.2.2.2
    have h2 : monthLen a.1 a.2.1 ≤ 31 := monthLen_le
    omega
  have hdb : b.2.2 ≤ 99 := by
    have h1 := hb.2.2.2.2
    have h2 : monthLen b.1 b.2.1 ≤ 31 := monthLen_le
    omega
  unfold canon
  rw [strLt_format hya hyb hma hmb hda hdb]
  exact decide_eq_decide.mpr ⟨dayNumber_lt_of_lex ha hb, dayNumber_lt_imp_lex ha hb⟩

/-- The source's string-and-clock cutoff test agrees with the claim's
instant semantics on the local-milliseconds timeline. -/
theorem isAtOrPastCutoff_spec (now : Int) (tz : Int → Int) (d : Nat × Nat × Nat)
    (hvd : ValidT d) (hd9 : d.1 ≤ 9999)
    (hpos : 0 ≤ now + tz now)
    (hbound : now + tz now < (daysBeforeYear 10000 : Int) * 86400000) :
    isAtOrPastCutoff now (canon d) tz = some (cutoffB d now tz) := by
  unfold isAtOrPastCutoff getDateAndTimeInTz
  rw [if_neg (by omega)]
  dsimp only
  set l := (now + tz now).toNat with hldef
  have hleq : (l : Int) = now + tz now := by omega
  set lt := civilFromDays (l / 86400000) with hltdef
  have hvlt : ValidT lt := (civilFromDays_spec _).1
  have hDNlt : dayNumber lt.1 lt.2.1 lt.2.2 = l / 86400000 := (civilFromDays_spec _).2
  have hlbound : l < daysBeforeYear 10000 * 86400000 := by omega
  have hlt9 : lt.1 ≤ 9999 := by
    have h1 : l / 86400000 < daysBeforeYear 10000 := by omega
    have h2 : l / 86400000 < daysBeforeYear (9999 + 1) := h1
    exact civilFromDays_year_le (by omega) h2
  rw [show canon (civilFromDays (l / 86400000)) = canon lt by rw [← hltdef]]
  rw [strLt_canon_eq hvd hvlt hd9 hlt9, strLt_canon_eq hvlt hvd hlt9 hd9]
  by_cases h1 : dayNumber d.1 d.2.1 d.2.2 < dayNumber lt.1 lt.2.1 lt.2.2
  · rw [if_pos (by simpa using h1)]
    unfold cutoffB
    congr 1
    symm
    rw [decide_eq_true_eq]
    omega
  · rw [if_neg (by simpa using h1)]
    by_cases h2 : dayNumber lt.1 lt.2.1 lt.2.2 < dayNumber d.1 d.2.1 d.2.2
    · rw [if_pos (by simpa using h2)]
      unfold cutoffB
      congr 1
      symm
      rw [decide_eq_false_iff_not]
      omega
    · rw [if_neg (by simpa using h2)]
      have hmm := Nat.mod_mod_of_dvd l (show 3600000 ∣ 86400000 by norm_num)
      unfold cutoffB
      congr 1
      rw [Bool.eq_iff_iff]
      simp only [Bool.or_eq_true, decide_eq_true_eq]
      omega

/-- addWorkingDays with n = 1 lands on the first working day strictly after
the start date: the result is working, and every day strictly between is
not. -/
theorem addGo_one (cal : ProjectCalendar) :
    ∀ (fuel : Nat) (t : Nat × Nat × Nat) (e : Str),
      ValidT t →
      addGo cal fuel (canon t) 1 = .ok e →
      ∃ u : Nat × Nat × Nat, e = canon u ∧ ValidT u ∧
        dayNumber t.1 t.2.1 t.2.2 < dayNumber u.1 u.2.1 u.2.2 ∧
        isWorkingDayE (canon u) cal = some true ∧
        ∀ k, dayNumber t.1 t.2.1 t.2.2 < k → k < dayNumber u.1 u.2.1 u.2.2 →
          isWorkingDayE (canon (civilFromDays k)) cal = some false := by
  intro fuel
  induction fuel with
  | zero =>
    intro t e hv he
    exact absurd he (by simp [addGo])
  | succ f ih =>
    intro t e hv he
    have hstep : addGo cal (f + 1) (canon t) 1 =
        match nextDay (canon t) with
        | none => .err
        | some c2 =>
          match isWorkingDayE c2 cal with
          | none => .err
          | some w => addGo cal f c2 (if w then 0 else 1) := rfl
    rw [hstep, nextDay_canon hv] at he
    set t2 := civilFromDays (dayNumber t.1 t.2.1 t.2.2 + 1) with ht2
    have hv2 : ValidT t2 := (civilFromDays_spec _).1
    have hDN2 : dayNumber t2.1 t2.2.1 t2.2.2 = dayNumber t.1 t.2.1 t.2.2 + 1 :=
      (civilFromDays_spec _).2
    dsimp only at he
    cases hw2 : isWorkingDayE (canon t2) cal with
    | none => rw [hw2] at he; simp at he
    | some w2 =>
      rw [hw2] at he
      dsimp only at he
      cases w2 with
      | true =>
        have h0 : addGo cal f (canon t2) 0 = .ok (canon t2) := by
          cases f <;> rfl
        rw [show (if true then 0 else 1) = 0 from rfl, h0] at he
        have het2 : e = canon t2 := ((FRes.ok.injEq _ _).mp he).symm
        refine ⟨t2, het2, hv2, by omega, hw2, ?_⟩
        intro k hk1 hk2
        omega
      | false =>
        rw [show (if false then 0 else 1) = 1 from rfl] at he
        obtain ⟨u, heu, hvu, hDNu, hwu, hbetween⟩ := ih t2 e hv2 he
        refine ⟨u, heu, hvu, by omega, hwu, ?_⟩
        intro k hk1 hk2
        rcases Nat.lt_or_ge (dayNumber t.1 t.2.1 t.2.2 + 1) k with hgt | hle
        · exact hbetween k (by omega) hk2
        · have hk : k = dayNumber t.1 t.2.1 t.2.2 + 1 := by omega
          rw [hk, ← ht2]
          exact hw2

/-- The cascade of computePartState equals the claim's cascade under the
instant cutoff semantics, given the result of addWorkingDays. -/
theorem computePartState_spec (fuel : Nat) (cal : ProjectCalendar) (tz : Int → Int)
    (now : Int) (approved : Bool) (ed fwd : Nat × Nat × Nat)
    (ndo : Option (Nat × Nat × Nat))
    (hved : ValidT ed) (hed9 : ed.1 ≤ 9999)
    (hnd : ∀ x, ndo = some x → ValidT x ∧ x.1 ≤ 9999)
    (hvfwd : ValidT fwd) (hfwd9 : fwd.1 ≤ 9999)
    (hpos : 0 ≤ now + tz now)
    (hbound : now + tz now < (daysBeforeYear 10000 : Int) * 86400000)
    (hadd : addWorkingDaysF fuel (canon ed) 1 cal = .ok (canon fwd)) :
    computePartStateF fuel ⟨canon ed, approved, ndo.map canon, now, tz⟩ cal =
      .ok (claimPartState now tz approved ed ndo fwd) := by
  unfold computePartStateF claimPartState
  cases approved with
  | true => rfl
  | false =>
    dsimp only
    rw [isAtOrPastCutoff_spec now tz ed hved hed9 hpos hbound]
    cases hc1 : cutoffB ed now tz with
    | false => rfl
    | true =>
      cases ndo with
      | none =>
        rw [hadd]
        dsimp only
        rw [isAtOrPastCutoff_spec now tz fwd hvfwd hfwd9 hpos hbound]
        cases hcf : cutoffB fwd now tz <;> rfl
      | some nd =>
        have hvnd := (hnd nd rfl).1
        have hnd9 := (hnd nd rfl).2
        dsimp only [Option.map]
        rw [isAtOrPastCutoff_spec now tz nd hvnd hnd9 hpos hbound]
        cases hcn : cutoffB nd now tz with
        | false => rfl
        | true =>
          rw [hadd]
          dsimp only
          rw [isAtOrPastCutoff_spec now tz fwd hvfwd hfwd9 hpos hbound]
          cases hcf : cutoffB fwd now tz <;> rfl

/-- Claim C4: computePartState classifies by the claim's cascade — Approved
when approved; NotDue strictly before 00:01:00 local time on endDate; then
Snoozed before the notification-date cutoff; then Overdue at or past the
cutoff of the first working day after endDate (the addWorkingDays result is
proven to be exactly that: a working day strictly after endDate with no
working day strictly between); else Due.  In particular, with endDate
2025-02-17 and timezone UTC under the default Swedish calendar:
00:00:59Z on the 17th is NotDue, 00:01:00Z is Due, and 00:01:00Z on the
18th is Overdue. -/
theorem claim_C4 (fuel : Nat) (cal : ProjectCalendar) (tz : Int → Int)
    (now : Int) (approved : Bool) (ed fwd : Nat × Nat × Nat)
    (ndo : Option (Nat × Nat × Nat))
    (hved : ValidT ed) (hed9 : ed.1 ≤ 9999)
    (hnd : ∀ x, ndo = some x → ValidT x ∧ x.1 ≤ 9999)
    (hvfwd : ValidT fwd) (hfwd9 : fwd.1 ≤ 9999)
    (hpos : 0 ≤ now + tz now)
    (hbound : now + tz now < (daysBeforeYear 10000 : Int) * 86400000)
    (hadd : addWorkingDaysF fuel (canon ed) 1 cal = .ok (canon fwd)) :
    (dayNumber ed.1 ed.2.1 ed.2.2 < dayNumber fwd.1 fwd.2.1 fwd.2.2 ∧
      isWorkingDayE (canon fwd) cal = some true ∧
      ∀ k, dayNumber ed.1 ed.2.1 ed.2.2 < k → k < dayNumber fwd.1 fwd.2.1 fwd.2.2 →
        isWorkingDayE (canon (civilFromDays k)) cal = some false) ∧
    computePartStateF fuel ⟨canon ed, approved, ndo.map canon, now, tz⟩ cal =
      .ok (claimPartState now tz approved ed ndo fwd) ∧
    computePartStateF 10
      ⟨dk ("2025-02-17"), false, none,
        (dayNumber 2025 2 17 : Int) * 86400000 + 59000, utcTz⟩
      (swedishCalendar utcTz) = .ok .NotDue ∧
    computePartStateF 10
      ⟨dk ("2025-02-17"), false, none,
        (dayNumber 2025 2 17 : Int) * 86400000 + 60000, utcTz⟩
      (swedishCalendar utcTz) = .ok .Due ∧
    computePartStateF 10
      ⟨dk ("2025-02-17"), false, none,
        (dayNumber 2025 2 18 : Int) * 86400000 + 60000, utcTz⟩
      (swedishCalendar utcTz) = .ok .Overdue := by
  refine ⟨?_, computePartState_spec fuel cal tz now approved ed fwd ndo hved hed9 hnd
    hvfwd hfwd9 hpos hbound hadd, by decide, by decide, by decide⟩
  unfold addWorkingDaysF at hadd
  rw [if_neg (by omega)] at hadd
  obtain ⟨u, heu, hvu, hDNu, hwu, hbetween⟩ :=
    addGo_one cal fuel ed (canon fwd) hved (by exact_mod_cast hadd)
  have huf : u = fwd := canon_inj heu.symm
  subst huf
  exact ⟨hDNu, hwu, hbetween⟩

/-- Witness for C4: endDate Monday 2025-02-17, UTC, the default Swedish
calendar, now at noon on the 17th, no snooze: the first working day after
is Tuesday 2025-02-18 and the outcome is the claimed cascade value. -/
theorem claim_C4_witness :
    ((dayNumber 2025 2 17 < dayNumber 2025 2 18 ∧
      isWorkingDayE (canon (2025, 2, 18)) (swedishCalendar utcTz) = some true ∧
      ∀ k, dayNumber 2025 2 17 < k → k < dayNumber 2025 2 18 →
        isWorkingDayE (canon (civilFromDays k)) (swedishCalendar utcTz) = some false) ∧
    computePartStateF 10
      ⟨canon (2025, 2, 17), false, Option.map canon none,
        (dayNumber 2025 2 17 : Int) * 86400000 + 43200000, utcTz⟩
      (swedishCalendar utcTz) =
      .ok (claimPartState ((dayNumber 2025 2 17 : Int) * 86400000 + 43200000) utcTz false
        (2025, 2, 17) none (2025, 2, 18)) ∧
    computePartStateF 10
      ⟨dk ("2025-02-17"), false, none,
        (dayNumber 2025 2 17 : Int) * 86400000 + 59000, utcTz⟩
      (swedishCalendar utcTz) = .ok .NotDue ∧
    computePartStateF 10
      ⟨dk ("2025-02-17"), false, none,
        (dayNumber 2025 2 17 : Int) * 86400000 + 60000, utcTz⟩
      (swedishCalendar utcTz) = .ok .Due ∧
    computePartStateF 10
      ⟨dk ("2025-02-17"), false, none,
        (dayNumber 2025 2 18 : Int) * 86400000 + 60000, utcTz⟩
      (swedishCalendar utcTz) = .ok .Overdue) :=
  claim_C4 10 (swedishCalendar utcTz) utcTz
    ((dayNumber 2025 2 17 : Int) * 86400000 + 43200000) false
    (2025, 2, 17) (2025, 2, 18) none
    (by decide) (by decide) (by intro x hx; cases hx) (by decide) (by decide)
    (by decide)
    (by
      have h1 : (daysBeforeYear 2027 : Nat) ≤ daysBeforeYear 10000 :=
        daysBeforeYear_mono (by omega)
      have h2 : ((dayNumber 2025 2 17 : Int) * 86400000 + 43200000) +
          utcTz ((dayNumber 2025 2 17 : Int) * 86400000 + 43200000) <
          (daysBeforeYear 2027 : Int) * 86400000 := by decide
      omega)
    (by decide)

/-! ## C8: projectProgress tally -/

/-- The tally loop of projectProgress adds, to each accumulator component,
the number of parts whose completion check yields the matching status. -/
theorem tallyGo_countP (fuel : Nat) (events : List DomainEvent)
    (calendar : ProjectCalendar) (tz : Int → Int) (f : PartBase → PartCompletionStatus) :
    ∀ ps : List PartBase,
      (∀ p ∈ ps, projectPartCompletionStatusF fuel events p.partId p.endDate calendar tz
        = .ok (f p)) →
      ∀ ot dl ea nc, tallyGo fuel events calendar tz ps (ot, dl, ea, nc) =
        .ok (ot + ps.countP (fun p => decide (f p = .OnTime)),
             dl + ps.countP (fun p => decide (f p = .Delayed)),
             ea + ps.countP (fun p => decide (f p = .Early)),
             nc + ps.countP (fun p => decide (f p = .NotCompleted))) := by
  intro ps
  induction ps with
  | nil => intro _ ot dl ea nc; simp [tallyGo]
  | cons p ps ih =>
    intro h ot dl ea nc
    have hp := h p (List.mem_cons_self p ps)
    have hrest : ∀ q ∈ ps, projectPartCompletionStatusF fuel events q.partId q.endDate
        calendar tz = .ok (f q) := fun q hq => h q (List.mem_cons_of_mem p hq)
    dsimp only [tallyGo]
    rw [hp]
    cases hfp : f p
    · dsimp only
      rw [ih hrest ot dl ea (nc + 1)]
      simp [List.countP_cons, hfp]
      omega
    · dsimp only
      rw [ih hrest (ot + 1) dl ea nc]
      simp [List.countP_cons, hfp]
      omega
    · dsimp only
      rw [ih hrest ot (dl + 1) ea nc]
      simp [List.countP_cons, hfp]
      omega
    · dsimp only
      rw [ih hrest ot dl (ea + 1) nc]
      simp [List.countP_cons, hfp]
      omega

/-- C8: projectProgress tallies each part's completion status and returns
percent = (onTime + delayed + early) / totalParts (an exact rational, and 0
with all counts 0 when the snapshot has no parts — note 0 / 0 = 0 in ℚ, so
the single formula also covers the empty snapshot); over the four-part
example with one part completed on time, one two working days late, one two
working days early and one never completed, percent is 3 / 4. -/
theorem claim_C8 :
    (∀ (fuel : Nat) (snapshot : ProjectSnapshot) (events : List DomainEvent)
        (calendar : ProjectCalendar) (tz : Int → Int)
        (f : PartBase → PartCompletionStatus),
      (∀ p ∈ snapshot.parts,
        projectPartCompletionStatusF fuel events p.partId p.endDate calendar tz
          = .ok (f p)) →
      projectProgressF fuel snapshot events calendar tz =
        .ok { percent := ((snapshot.parts.countP (fun p => decide (f p = .OnTime)) +
                  snapshot.parts.countP (fun p => decide (f p = .Delayed)) +
                  snapshot.parts.countP (fun p => decide (f p = .Early)) : Nat) : ℚ) /
                (snapshot.parts.length : ℚ),
              onTime := snapshot.parts.countP (fun p => decide (f p = .OnTime)),
              delayed := snapshot.parts.countP (fun p => decide (f p = .Delayed)),
              early := snapshot.parts.countP (fun p => decide (f p = .Early)),
              notCompleted :=
                snapshot.parts.countP (fun p => decide (f p = .NotCompleted)) })
    ∧ (∀ (fuel : Nat) (events : List DomainEvent) (calendar : ProjectCalendar)
        (tz : Int → Int),
      projectProgressF fuel ⟨[]⟩ events calendar tz = .ok ⟨0, 0, 0, 0, 0⟩)
    ∧ projectProgressF 40
        ⟨[⟨dk ("pA"), dk ("2025-02-17")⟩, ⟨dk ("pB"), dk ("2025-02-17")⟩,
          ⟨dk ("pC"), dk ("2025-02-17")⟩, ⟨dk ("pD"), dk ("2025-02-17")⟩]⟩
        [{ type := .PartCompleted, partId := dk ("pA"),
           timestamp := (dayNumber 2025 2 17 : Int) * 86400000 + 43200000 },
         { type := .PartCompleted, partId := dk ("pB"),
           timestamp := (dayNumber 2025 2 19 : Int) * 86400000 + 43200000 },
         { type := .PartCompleted, partId := dk ("pC"),
           timestamp := (dayNumber 2025 2 13 : Int) * 86400000 + 43200000 }]
        (swedishCalendar utcTz) utcTz =
      .ok ⟨3 / 4, 1, 1, 1, 1⟩ := by
  refine ⟨?_, ?_, ?_⟩
  · intro fuel snapshot events calendar tz f h
    by_cases hnil : snapshot.parts = []
    · simp [projectProgressF, hnil]
    · unfold projectProgressF
      rw [if_neg hnil, tallyGo_countP fuel events calendar tz f snapshot.parts h 0 0 0 0]
      dsimp only
      simp
  · intro fuel events calendar tz
    simp [projectProgressF]
  · have ht : tallyGo 40
        [{ type := .PartCompleted, partId := dk ("pA"),
           timestamp := (dayNumber 2025 2 17 : Int) * 86400000 + 43200000 },
         { type := .PartCompleted, partId := dk ("pB"),
           timestamp := (dayNumber 2025 2 19 : Int) * 86400000 + 43200000 },
         { type := .PartCompleted, partId := dk ("pC"),
           timestamp := (dayNumber 2025 2 13 : Int) * 86400000 + 43200000 }]
        (swedishCalendar utcTz) utcTz
        [⟨dk ("pA"), dk ("2025-02-17")⟩, ⟨dk ("pB"), dk ("2025-02-17")⟩,
         ⟨dk ("pC"), dk ("2025-02-17")⟩, ⟨dk ("pD"), dk ("2025-02-17")⟩]
        (0, 0, 0, 0) = .ok (1, 1, 1, 1) := by decide
    unfold projectProgressF
    rw [if_neg (by decide), ht]
    dsimp only
    norm_num

/-- Witness for C8: the general tally statement applied to a one-part
snapshot with no events, whose only part is therefore NotCompleted. -/
theorem claim_C8_witness :
    projectProgressF 0 ⟨[⟨dk ("p"), dk ("2025-02-17")⟩]⟩ [] (swedishCalendar utcTz)
      utcTz = .ok ⟨0, 0, 0, 0, 1⟩ := by
  have h1 := claim_C8.1 0 ⟨[⟨dk ("p"), dk ("2025-02-17")⟩]⟩ [] (swedishCalendar utcTz)
    utcTz (fun _ => PartCompletionStatus.NotCompleted)
    (by intro p hp; rw [List.mem_singleton] at hp; subst hp; decide)
  rw [h1]
  simp

/-! ## C7: projectPartPace -/

/-- A sorted-by-timestamp permutation puts a minimal-timestamp element first:
the head of sortByTs is in the list and no element has a smaller timestamp. -/
theorem sortByTs_head_min (l : List DomainEvent) (c : DomainEvent)
    (h : (sortByTs l).head? = some c) :
    c ∈ l ∧ ∀ e ∈ l, c.timestamp ≤ e.timestamp := by
  cases hs : sortByTs l with
  | nil => rw [hs] at h; cases h
  | cons a rest =>
    rw [hs] at h
    simp only [List.head?_cons, Option.some.injEq] at h
    subst h
    have hperm := sortByTs_perm l
    rw [hs] at hperm
    have hsort := sortByTs_sorted l
    rw [hs] at hsort
    refine ⟨hperm.mem_iff.mp (List.mem_cons_self a rest), ?_⟩
    intro e he
    rcases List.mem_cons.mp (hperm.mem_iff.mpr he) with rfl | hmem
    · exact le_refl _
    · exact (List.pairwise_cons.mp hsort).1 e hmem

/-- sortByTs returns the empty list exactly on the empty list. -/
theorem sortByTs_nil_iff (l : List DomainEvent) : sortByTs l = [] ↔ l = [] := by
  constructor
  · intro h
    have := (sortByTs_perm l).length_eq
    rw [h] at this
    exact List.length_eq_zero.mp this.symm
  · intro h; subst h; rfl

/-- C7 counterexample: part completed on Monday 2025-12-29 with planned
endDate Wednesday 2025-12-24. The code answers a pace of 3 because its
working-day distance consults only the weekend configuration, yet by the
calendar itself (Swedish holidays 12-25 and 12-26, weekend 12-27/12-28) the
only working day after the endDate up to the completion date is 12-29, and
the repository's own calendar-aware diffWorkingDays gives 1, not 3. -/
theorem claim_C7_counterexample :
    projectPartPaceF 40
      [{ type := .PartCompleted, partId := dk ("p1"),
         timestamp := (dayNumber 2025 12 29 : Int) * 86400000 + 43200000 }]
      (dk ("p1")) (dk ("2025-12-24")) (swedishCalendar utcTz) utcTz = .ok (some 3)
    ∧ dateKeyFromDateE ((dayNumber 2025 12 29 : Int) * 86400000 + 43200000) utcTz
        = some (dk ("2025-12-29"))
    ∧ isWorkingDayE (dk ("2025-12-24")) (swedishCalendar utcTz) = some true
    ∧ isWorkingDayE (dk ("2025-12-25")) (swedishCalendar utcTz) = some false
    ∧ isWorkingDayE (dk ("2025-12-26")) (swedishCalendar utcTz) = some false
    ∧ isWorkingDayE (dk ("2025-12-27")) (swedishCalendar utcTz) = some false
    ∧ isWorkingDayE (dk ("2025-12-28")) (swedishCalendar utcTz) = some false
    ∧ isWorkingDayE (dk ("2025-12-29")) (swedishCalendar utcTz) = some true
    ∧ diffWorkingDaysF 40 (dk ("2025-12-24")) (dk ("2025-12-29")) (swedishCalendar utcTz)
        = .ok 1 := by
  refine ⟨by decide, by decide, by decide, by decide, by decide, by decide, by decide,
    by decide, by decide⟩

/-- C7 amended: projectPartPace returns null exactly when the part has no
PartCompleted event; a non-null pace is the weekday-only working-day
distance (workdays Monday-Friday when the weekend contains both Sunday and
Saturday, otherwise all seven days — the calendar's holidays and overrides
are never consulted) from endDate to the local date of a PartCompleted event
of minimal timestamp; consequently the pace depends on the calendar only
through its weekendDays. -/
theorem claim_C7_amended (fuel : Nat) (events : List DomainEvent) (partId endDate : Str)
    (cal : ProjectCalendar) (tz : Int → Int) :
    (projectPartPaceF fuel events partId endDate cal tz = .ok none ↔
      events.filter
        (fun e => decide (e.partId = partId) && decide (e.type = .PartCompleted)) = [])
    ∧ (∀ k : Int, projectPartPaceF fuel events partId endDate cal tz = .ok (some k) →
        ∃ c, c ∈ events ∧ c.partId = partId ∧ c.type = .PartCompleted ∧
          (∀ e ∈ events, e.partId = partId → e.type = .PartCompleted →
            c.timestamp ≤ e.timestamp) ∧
          ∃ ck, dateKeyFromDateE c.timestamp tz = some ck ∧
            WD.diffWorkingDaysF fuel endDate ck
              { workdays := if 0 ∈ cal.weekendDays ∧ 6 ∈ cal.weekendDays
                  then [1, 2, 3, 4, 5] else [1, 2, 3, 4, 5, 6, 7] } = .ok k)
    ∧ (∀ cal2 : ProjectCalendar, cal2.weekendDays = cal.weekendDays →
        projectPartPaceF fuel events partId endDate cal2 tz =
          projectPartPaceF fuel events partId endDate cal tz) := by
  refine ⟨?_, ?_, ?_⟩
  · unfold projectPartPaceF
    cases hF : (sortByTs (events.filter
        (fun e => decide (e.partId = partId) && decide (e.type = .PartCompleted)))).head? with
    | none =>
      simp only [hF]
      constructor
      · intro _
        cases hF2 : events.filter
            (fun e => decide (e.partId = partId) && decide (e.type = .PartCompleted)) with
        | nil => rfl
        | cons a as =>
          exfalso
          cases hs : sortByTs (a :: as) with
          | nil => exact (List.cons_ne_nil a as) ((sortByTs_nil_iff _).mp hs)
          | cons b bs => rw [hF2, hs] at hF; cases hF
      · intro _; trivial
    | some c =>
      simp only [hF]
      constructor
      · intro hres
        exfalso
        cases hdk : dateKeyFromDateE c.timestamp tz with
        | none => rw [hdk] at hres; cases hres
        | some ck =>
          rw [hdk] at hres
          dsimp only at hres
          cases hwd : WD.diffWorkingDaysF fuel endDate ck
              { workdays :=
                  if (decide (0 ∈ cal.weekendDays) && decide (6 ∈ cal.weekendDays)) = true
                  then [1, 2, 3, 4, 5] else [1, 2, 3, 4, 5, 6, 7] } with
          | ok k => rw [hwd] at hres; cases hres
          | err => rw [hwd] at hres; cases hres
          | spin => rw [hwd] at hres; cases hres
      · intro hnil
        rw [hnil] at hF
        cases hF
  · intro k hres
    unfold projectPartPaceF at hres
    cases hF : (sortByTs (events.filter
        (fun e => decide (e.partId = partId) && decide (e.type = .PartCompleted)))).head? with
    | none => rw [hF] at hres; cases hres
    | some c =>
      rw [hF] at hres
      dsimp only at hres
      obtain ⟨hmem, hmin⟩ := sortByTs_head_min _ c hF
      rw [List.mem_filter] at hmem
      obtain ⟨hce, hcp⟩ := hmem
      simp only [Bool.and_eq_true, decide_eq_true_eq] at hcp
      refine ⟨c, hce, hcp.1, hcp.2, ?_, ?_⟩
      · intro e he hp ht
        exact hmin e (List.mem_filter.mpr ⟨he, by simp [hp, ht]⟩)
      · cases hdk : dateKeyFromDateE c.timestamp tz with
        | none => rw [hdk] at hres; cases hres
        | some ck =>
          rw [hdk] at hres
          dsimp only at hres
          refine ⟨ck, rfl, ?_⟩
          cases hwd : WD.diffWorkingDaysF fuel endDate ck
              { workdays :=
                  if (decide (0 ∈ cal.weekendDays) && decide (6 ∈ cal.weekendDays)) = true
                  then [1, 2, 3, 4, 5] else [1, 2, 3, 4, 5, 6, 7] } with
          | ok r =>
            rw [hwd] at hres
            cases hres
            have : ({ workdays := if 0 ∈ cal.weekendDays ∧ 6 ∈ cal.weekendDays
                then [1, 2, 3, 4, 5] else [1, 2, 3, 4, 5, 6, 7] } : WD.WorkingDayConfig)
                = { workdays :=
                    if (decide (0 ∈ cal.weekendDays) && decide (6 ∈ cal.weekendDays)) = true
                    then [1, 2, 3, 4, 5] else [1, 2, 3, 4, 5, 6, 7] } := by
              simp [Bool.and_eq_true, decide_eq_true_eq]
            rw [this, hwd]
          | err => rw [hwd] at hres; cases hres
          | spin => rw [hwd] at hres; cases hres
  · intro cal2 h2
    simp only [projectPartPaceF, h2]

/-- Witness for C7: the amended theorem at a concrete empty event list gives
pace null. -/
theorem claim_C7_witness :
    projectPartPaceF 40 [] (dk ("p1")) (dk ("2025-12-24")) (swedishCalendar utcTz) utcTz
      = .ok none :=
  (claim_C7_amended 40 [] (dk ("p1")) (dk ("2025-12-24")) (swedishCalendar utcTz)
    utcTz).1.mpr (by decide)

/-! ## C10: termination of the calendar walks -/

/-- A successful findOverride returns a member of the override list whose
date matches. -/
theorem findOverride_mem_aux (date : Str) :
    ∀ (os : List CalendarOverride) (acc : Option CalendarOverride) (o : CalendarOverride),
      os.foldl (fun acc o => if o.date = date then some o else acc) acc = some o →
      acc = some o ∨ (o ∈ os ∧ o.date = date) := by
  intro os
  induction os with
  | nil => intro acc o h; exact Or.inl h
  | cons x xs ih =>
    intro acc o h
    rcases ih _ o h with hacc | hxs
    · dsimp only at hacc
      by_cases hx : x.date = date
      · rw [if_pos hx] at hacc
        have : o = x := by injection hacc with h2; exact h2.symm
        subst this
        exact Or.inr ⟨List.mem_cons_self _ _, hx⟩
      · rw [if_neg hx] at hacc
        exact Or.inl hacc
    · exact Or.inr ⟨List.mem_cons_of_mem _ hxs.1, hxs.2⟩

/-- findOverride returns a member of the list with the looked-up date. -/
theorem findOverride_mem {os : List CalendarOverride} {date : Str} {o : CalendarOverride}
    (h : findOverride os date = some o) : o ∈ os ∧ o.date = date := by
  rcases findOverride_mem_aux date os none o h with hacc | hm
  · cases hacc
  · exact hm

/-- For years of at least four digits the padded year field is just the
digit string. -/
theorem pad4_eq_natDigits {y : Nat} (h : 1000 ≤ y) : pad4 y = natDigits y := by
  have hlt := digitsToNat_lt_pow (natDigits_all_digits y)
  rw [digitsToNat_natDigits] at hlt
  have hlen : 4 ≤ (natDigits y).length := by
    by_contra hc
    have h3 : (natDigits y).length ≤ 3 := by omega
    have : (10 : Nat) ^ (natDigits y).length ≤ 10 ^ 3 :=
      Nat.pow_le_pow_right (by norm_num) h3
    omega
  unfold pad4 padZeros
  rw [show 4 - (natDigits y).length = 0 by omega]
  rfl

/-- Every residue class mod 7 is hit within any 7 consecutive offsets. -/
theorem exists_add_mod7 (a w : Nat) (hw : w < 7) : ∃ j, j < 7 ∧ (a + j) % 7 = w :=
  ⟨(7 + w - a % 7) % 7, by omega, by omega⟩

/-- January 8-14 of any modelled year contains each weekday exactly once; in
particular a day of any requested weekday. -/
theorem jan_window_weekday (w y : Nat) (hw : w < 7) (hy : 1970 ≤ y) :
    ∃ d, 8 ≤ d ∧ d ≤ 14 ∧ ValidT (y, 1, d) ∧ weekdayOfDays (dayNumber y 1 d) = w := by
  obtain ⟨j, hj7, hjmod⟩ := exists_add_mod7 (daysBeforeYear y + 11) w hw
  refine ⟨8 + j, by omega, by omega, ?_, ?_⟩
  · rw [ValidT_def]
    refine ⟨hy, le_refl _, by omega, by omega, ?_⟩
    show 8 + j ≤ 31
    omega
  · show (dayNumber y 1 (8 + j) + 4) % 7 = w
    unfold dayNumber
    show (daysBeforeYear y + daysBeforeMonth y 1 + (8 + j - 1) + 4) % 7 = w
    have h1 : daysBeforeMonth y 1 = 0 := rfl
    omega

/-- June 20-26 of any year contains a Saturday. -/
theorem june_saturday (y : Nat) :
    ∃ d, 20 ≤ d ∧ d ≤ 26 ∧ weekdayOfDays (dayNumber y 6 d) = 6 := by
  obtain ⟨j, hj7, hjmod⟩ :=
    exists_add_mod7 (daysBeforeYear y + daysBeforeMonth y 6 + 23) 6 (by omega)
  refine ⟨20 + j, by omega, by omega, ?_⟩
  show (dayNumber y 6 (20 + j) + 4) % 7 = 6
  unfold dayNumber
  omega

/-- saturdayBetweenUTC over June 20-26 always succeeds, with a key of a June
day in the window. -/
theorem saturdayBetweenUTC_some (y : Nat) :
    ∃ s d, saturdayBetweenUTC y 6 20 26 = some s ∧ 20 ≤ d ∧ d ≤ 26 ∧
      weekdayOfDays (dayNumber y 6 d) = 6 ∧ s = toKeyUTC (dayNumber y 6 d) := by
  obtain ⟨d0, hd1, hd2, hwd⟩ := june_saturday y
  have hmem : d0 ∈ List.range' 20 (26 + 1 - 20) := by
    rw [List.mem_range'_1]
    omega
  have hsome : (List.range' 20 (26 + 1 - 20)).find?
      (fun d => weekdayOfDays (dayNumber y 6 d) == 6) |>.isSome := by
    rw [List.find?_isSome]
    exact ⟨d0, hmem, by simp [hwd]⟩
  cases hfind : (List.range' 20 (26 + 1 - 20)).find?
      (fun d => weekdayOfDays (dayNumber y 6 d) == 6) with
  | none => rw [hfind] at hsome; cases hsome
  | some d =>
    have hdmem := List.mem_range'_1.mp (List.mem_of_find?_eq_some hfind)
    have hdwd : weekdayOfDays (dayNumber y 6 d) = 6 := by
      have := List.find?_some hfind
      simpa using this
    refine ⟨toKeyUTC (dayNumber y 6 d), d, ?_, by omega, by omega, hdwd, rfl⟩
    unfold saturdayBetweenUTC
    rw [hfind]

/-- The Euclidean division/remainder pair as linear facts. -/
theorem edivFacts (a b : Int) (hb : 0 < b) :
    b * a.ediv b + a.emod b = a ∧ 0 ≤ a.emod b ∧ a.emod b < b :=
  ⟨Int.ediv_add_emod a b, Int.emod_nonneg _ (by omega), Int.emod_lt_of_pos _ hb⟩

/-- Arithmetic core of the Easter bounds: with the Meeus/Jones/Butcher
letters h, l, m in their ranges, the month is 3 or 4 and the day 1-31. -/
theorem easter_core (h l m : Int) (hh : 0 ≤ h ∧ h < 30) (hl : 0 ≤ l ∧ l < 7)
    (hm : 0 ≤ m ∧ m ≤ 1) :
    3 ≤ (h + l - 7 * m + 114).ediv 31 ∧ (h + l - 7 * m + 114).ediv 31 ≤ 4 ∧
      1 ≤ (h + l - 7 * m + 114).emod 31 + 1 ∧ (h + l - 7 * m + 114).emod 31 + 1 ≤ 31 := by
  obtain ⟨e1, e2, e3⟩ := edivFacts (h + l - 7 * m + 114) 31 (by decide)
  omega

/-- Bounds on the Meeus/Jones/Butcher result: month March or April, day in
1-31. -/
theorem easterMonthDay_bounds (y : Nat) :
    3 ≤ (easterMonthDay y).1 ∧ (easterMonthDay y).1 ≤ 4 ∧
      1 ≤ (easterMonthDay y).2 ∧ (easterMonthDay y).2 ≤ 31 := by
  unfold easterMonthDay
  dsimp only
  set a := ((y : Int)).emod 19 with hA
  set b := ((y : Int)).ediv 100 with hB
  set c := ((y : Int)).emod 100 with hC
  set d := b.ediv 4 with hD
  set e := b.emod 4 with hE
  set f := (b + 8).ediv 25 with hF
  set g := (b - f + 1).ediv 3 with hG
  set hh := (19 * a + b - d - g + 15).emod 30 with hH
  set i := c.ediv 4 with hI
  set k := c.emod 4 with hK
  set ll := (32 + 2 * e + 2 * i - hh - k).emod 7 with hL
  set mm := (a + 11 * hh + 22 * ll).ediv 451 with hM
  have hAb : 0 ≤ a ∧ a < 19 := by
    rw [hA]; exact ⟨Int.emod_nonneg _ (by decide), Int.emod_lt_of_pos _ (by decide)⟩
  have hHb : 0 ≤ hh ∧ hh < 30 := by
    rw [hH]; exact ⟨Int.emod_nonneg _ (by decide), Int.emod_lt_of_pos _ (by decide)⟩
  have hLb : 0 ≤ ll ∧ ll < 7 := by
    rw [hL]; exact ⟨Int.emod_nonneg _ (by decide), Int.emod_lt_of_pos _ (by decide)⟩
  have hMb : 0 ≤ mm ∧ mm ≤ 1 := by
    obtain ⟨e1, e2, e3⟩ := edivFacts (a + 11 * hh + 22 * ll) 451 (by decide)
    rw [hM]
    omega
  exact easter_core hh ll mm hHb hLb hMb

/-- daysBeforeMonth y 3 is 59 or 60. -/
theorem daysBeforeMonth_3 (y : Nat) :
    59 ≤ daysBeforeMonth y 3 ∧ daysBeforeMonth y 3 ≤ 60 := by
  have h3 : daysBeforeMonth y 3 = 31 + monthLen y 2 := rfl
  have h2 : monthLen y 2 = if isLeap y then 29 else 28 := rfl
  rw [h3, h2]
  split <;> omega

/-- Easter Sunday's day number exists and falls between March 1 and
July 1 - 49 of its year. -/
theorem easterDayNumE_lb (y : Nat) (hy : 1970 ≤ y) :
    ∃ e, easterDayNumE y = some e ∧
      daysBeforeYear y + 59 ≤ e ∧ e ≤ daysBeforeYear y + 121 := by
  obtain ⟨h3, h4, hd1, hd31⟩ := easterMonthDay_bounds y
  have hdbm3 := daysBeforeMonth_3 y
  have hdbm4 : daysBeforeMonth y 4 = daysBeforeMonth y 3 + 31 := rfl
  have hstart : easterDayNumE y =
      jsDateUTCdays (y : Int) ((easterMonthDay y).1 - 1) (easterMonthDay y).2 := rfl
  have hm : (easterMonthDay y).1 = 3 ∨ (easterMonthDay y).1 = 4 := by omega
  rcases hm with h | h
  · rw [hstart, h, show (3 : Int) - 1 = 2 from by decide]
    unfold jsDateUTCdays
    rw [show ((2 : Int)).fdiv 12 = 0 from by decide,
      show ((2 : Int)).emod 12 = 2 from by decide]
    dsimp only
    rw [if_neg (by omega)]
    refine ⟨_, rfl, ?_, ?_⟩
    · rw [show ((y : Int) + 0).toNat = y from by omega,
        show ((2 : Int)).toNat + 1 = 3 from by decide]
      unfold dayNumber
      omega
    · rw [show ((y : Int) + 0).toNat = y from by omega,
        show ((2 : Int)).toNat + 1 = 3 from by decide]
      unfold dayNumber
      omega
  · rw [hstart, h, show (4 : Int) - 1 = 3 from by decide]
    unfold jsDateUTCdays
    rw [show ((3 : Int)).fdiv 12 = 0 from by decide,
      show ((3 : Int)).emod 12 = 3 from by decide]
    dsimp only
    rw [if_neg (by omega)]
    refine ⟨_, rfl, ?_, ?_⟩
    · rw [show ((y : Int) + 0).toNat = y from by omega,
        show ((3 : Int)).toNat + 1 = 4 from by decide]
      unfold dayNumber
      omega
    · rw [show ((y : Int) + 0).toNat = y from by omega,
        show ((3 : Int)).toNat + 1 = 4 from by decide]
      unfold dayNumber
      omega

/-- swedishHolidaysE always succeeds on modelled years, and its list is
exactly the fixed keys, the five Easter-based keys, Midsummer Day, and the
All Saints branch. -/
theorem swedishHolidaysE_eq (y : Nat) (hy : 1970 ≤ y) :
    ∃ eDN mid dmid,
      easterDayNumE y = some eDN ∧
      daysBeforeYear y + 59 ≤ eDN ∧ eDN ≤ daysBeforeYear y + 121 ∧
      20 ≤ dmid ∧ dmid ≤ 26 ∧ mid = toKeyUTC (dayNumber y 6 dmid) ∧
      swedishHolidaysE y = some (
        ([dk ("01-01"), dk ("01-06"), dk ("05-01"), dk ("06-06"), dk ("12-25"),
          dk ("12-26")].map (fun md => natDigits y ++ '-' :: md)) ++
        ([eDN - 2, eDN, eDN + 1, eDN + 39, eDN + 49].map toKeyUTC) ++
        mid :: ((if weekdayOfDays (dayNumber y 10 31) = 6
            then [natDigits y ++ dk ("-10-31")] else []) ++
          (List.range' 1 6).filterMap (fun d =>
            if weekdayOfDays (dayNumber y 11 d) = 6
            then some (natDigits y ++ '-' :: ('1' :: '1' :: '-' :: pad2 d))
            else none))) := by
  obtain ⟨eDN, heDN, hlb, hub⟩ := easterDayNumE_lb y hy
  obtain ⟨mid, dmid, hmid, hd1, hd2, hwd, hmideq⟩ := saturdayBetweenUTC_some y
  refine ⟨eDN, mid, dmid, heDN, hlb, hub, hd1, hd2, hmideq, ?_⟩
  unfold swedishHolidaysE
  rw [heDN, hmid]

/-- weekdayOfE on a canonical key under UTC is the day-number weekday. -/
theorem weekdayOfE_canon {t : Nat × Nat × Nat} (hv : ValidT t) :
    weekdayOfE (canon t) utcTz = some (weekdayOfDays (dayNumber t.1 t.2.1 t.2.2)) := by
  obtain ⟨y, m, d⟩ := t
  unfold weekdayOfE
  rw [show canon (y, m, d) = formatDateKey y m d from rfl, parse_format]
  dsimp only
  rw [jsDateUTCdays_valid hv]
  dsimp only [utcTz]
  rw [if_neg (by omega)]
  have h1 : (((dayNumber y m d : Int)) * 86400000 + 43200000 + 0).toNat
      = dayNumber y m d * 86400000 + 43200000 := by omega
  rw [h1]
  have h2 : (dayNumber y m d * 86400000 + 43200000) / 86400000 = dayNumber y m d := by
    omega
  rw [h2]

/-- Evaluation of isWorkingDay on a canonical non-overridden key under UTC:
some b, where b is true exactly when the key is neither a Swedish holiday
nor on a weekend day. -/
theorem isWorkingDayE_canon (cal : ProjectCalendar) (t : Nat × Nat × Nat)
    (hv : ValidT t) (hov : findOverride cal.overrides (canon t) = none)
    (htz : cal.timezone = utcTz) :
    ∃ hs, swedishHolidaysE t.1 = some hs ∧
      isWorkingDayE (canon t) cal =
        some (!(decide (canon t ∈ hs)) &&
          !(decide (weekdayOfDays (dayNumber t.1 t.2.1 t.2.2) ∈ cal.weekendDays))) := by
  have hy : 1970 ≤ t.1 := hv.1
  obtain ⟨eDN, mid, dmid, heDN, hl1, hl2, hm1, hm2, hmid, hhs0⟩ :=
    swedishHolidaysE_eq t.1 hy
  obtain ⟨hs, hhs⟩ : ∃ hs, swedishHolidaysE t.1 = some hs := ⟨_, hhs0⟩
  clear hhs0
  refine ⟨hs, hhs, ?_⟩
  obtain ⟨y, m, d⟩ := t
  unfold isWorkingDayE
  rw [hov]
  rw [show canon (y, m, d) = formatDateKey y m d from rfl, parse_format]
  dsimp only
  rw [if_neg (by exact_mod_cast by omega : ¬ ((y : Int) < 1970))]
  rw [show ((y : Int)).toNat = y from by omega]
  rw [show ((y, m, d) : Nat × Nat × Nat).1 = y from rfl] at hhs
  rw [hhs]
  dsimp only
  by_cases hmem : formatDateKey y m d ∈ hs
  · rw [if_pos hmem]
    simp [hmem]
  · rw [if_neg hmem, htz]
    rw [show formatDateKey y m d = canon (y, m, d) from rfl, weekdayOfE_canon hv]
    dsimp only
    have hmem2 : ¬ (canon (y, m, d) ∈ hs) := hmem
    by_cases hwk : weekdayOfDays (dayNumber y m d) ∈ cal.weekendDays
    · rw [if_pos hwk]
      simp [hmem2, hwk]
    · rw [if_neg hwk]
      simp [hmem2, hwk]

/-- Under UTC, isWorkingDay never throws on canonical keys. -/
theorem isWorkingDayE_total (cal : ProjectCalendar) (t : Nat × Nat × Nat)
    (hv : ValidT t) (htz : cal.timezone = utcTz) :
    ∃ b, isWorkingDayE (canon t) cal = some b := by
  cases hov : findOverride cal.overrides (canon t) with
  | some o =>
    refine ⟨o.isWorkingDay, ?_⟩
    unfold isWorkingDayE
    rw [hov]
  | none =>
    obtain ⟨hs, _, hres⟩ := isWorkingDayE_canon cal t hv hov htz
    exact ⟨_, hres⟩

/-- If every later day is non-working, the addWorkingDays loop spins at
every fuel once at least one working day is still owed. -/
theorem addGo_spin_all (cal : ProjectCalendar) :
    ∀ (fuel : Nat) (t : Nat × Nat × Nat) (r : Nat), ValidT t →
      (∀ k, dayNumber t.1 t.2.1 t.2.2 < k →
        isWorkingDayE (canon (civilFromDays k)) cal = some false) →
      addGo cal fuel (canon t) (r + 1) = .spin := by
  intro fuel
  induction fuel with
  | zero => intro t r hv h; rfl
  | succ f ih =>
    intro t r hv h
    have hstep : addGo cal (f + 1) (canon t) (r + 1) =
        match nextDay (canon t) with
        | none => .err
        | some c2 =>
          match isWorkingDayE c2 cal with
          | none => .err
          | some w => addGo cal f c2 (if w then r else r + 1) := rfl
    rw [hstep, nextDay_canon hv]
    dsimp only
    rw [h (dayNumber t.1 t.2.1 t.2.2 + 1) (by omega)]
    dsimp only
    refine ih (civilFromDays (dayNumber t.1 t.2.1 t.2.2 + 1)) r
      (civilFromDays_spec _).1 ?_
    intro k hk
    refine h k ?_
    have := (civilFromDays_spec (dayNumber t.1 t.2.1 t.2.2 + 1)).2
    omega

/-- If the current and every later day is non-working, the nextWorkingDay
loop spins at every fuel. -/
theorem nwGo_spin_all (cal : ProjectCalendar) :
    ∀ (fuel : Nat) (t : Nat × Nat × Nat), ValidT t →
      (∀ k, dayNumber t.1 t.2.1 t.2.2 ≤ k →
        isWorkingDayE (canon (civilFromDays k)) cal = some false) →
      nwGo cal fuel (canon t) = .spin := by
  intro fuel
  induction fuel with
  | zero =>
    intro t hv h
    have h0 : isWorkingDayE (canon t) cal = some false := by
      have := h (dayNumber t.1 t.2.1 t.2.2) (le_refl _)
      rwa [civil_dayNumber hv] at this
    rw [nwGo.eq_1, h0]
  | succ f ih =>
    intro t hv h
    have h0 : isWorkingDayE (canon t) cal = some false := by
      have := h (dayNumber t.1 t.2.1 t.2.2) (le_refl _)
      rwa [civil_dayNumber hv] at this
    rw [nwGo.eq_2, h0]
    dsimp only
    rw [nextDay_canon hv]
    dsimp only
    refine ih (civilFromDays (dayNumber t.1 t.2.1 t.2.2 + 1))
      (civilFromDays_spec _).1 ?_
    intro k hk
    refine h k ?_
    have := (civilFromDays_spec (dayNumber t.1 t.2.1 t.2.2 + 1)).2
    omega

/-- When all seven weekdays are weekend and no override marks a working
day, every canonical day is non-working. -/
theorem isWorkingDayE_all_weekend (cal : ProjectCalendar)
    (htz : cal.timezone = utcTz)
    (hwk : ∀ d, d < 7 → d ∈ cal.weekendDays)
    (hov : ∀ o ∈ cal.overrides, o.isWorkingDay = false)
    (t : Nat × Nat × Nat) (hv : ValidT t) :
    isWorkingDayE (canon t) cal = some false := by
  cases hfo : findOverride cal.overrides (canon t) with
  | some o =>
    have hm := findOverride_mem hfo
    have ho : o.isWorkingDay = false := hov o hm.1
    unfold isWorkingDayE
    rw [hfo]
    dsimp only
    rw [ho]
  | none =>
    obtain ⟨hs, _, hres⟩ := isWorkingDayE_canon cal t hv hfo htz
    rw [hres]
    have hwmem : weekdayOfDays (dayNumber t.1 t.2.1 t.2.2) ∈ cal.weekendDays :=
      hwk _ (by unfold weekdayOfDays; omega)
    simp [hwmem]

/-- C10 counterexample: an all-weekend calendar with a single extra working
day override on 2025-02-18. The calendar admits a working day strictly
after 2025-02-17, yet addWorkingDays("2025-02-17", 2) spins at every fuel:
"admits a working day after start" does not characterize termination for
two or more requested days. -/
theorem claim_C10_counterexample :
    isWorkingDayE (dk ("2025-02-18")) allWeekendCal = some true
    ∧ dayNumber 2025 2 17 < dayNumber 2025 2 18
    ∧ ∀ fuel, addWorkingDaysF fuel (dk ("2025-02-17")) 2 allWeekendCal = .spin := by
  refine ⟨by decide, by decide, ?_⟩
  intro fuel
  unfold addWorkingDaysF
  rw [if_neg (by decide), show ((2 : Int)).toNat = 2 from rfl]
  cases fuel with
  | zero => rfl
  | succ f =>
    have hstep : addGo allWeekendCal (f + 1) (dk ("2025-02-17")) 2 =
        match nextDay (dk ("2025-02-17")) with
        | none => .err
        | some c2 =>
          match isWorkingDayE c2 allWeekendCal with
          | none => .err
          | some w => addGo allWeekendCal f c2 (if w then 1 else 2) := rfl
    rw [hstep]
    rw [show nextDay (dk ("2025-02-17")) = some (dk ("2025-02-18")) from by decide]
    dsimp only
    rw [show isWorkingDayE (dk ("2025-02-18")) allWeekendCal = some true from by decide]
    dsimp only
    rw [show (dk ("2025-02-18") : Str) = canon (2025, 2, 18) from by decide]
    refine addGo_spin_all _ f (2025, 2, 18) 0 (by decide) ?_
    intro k hk
    have hvt : ValidT (civilFromDays k) := (civilFromDays_spec k).1
    have hdn : dayNumber (civilFromDays k).1 (civilFromDays k).2.1 (civilFromDays k).2.2
        = k := (civilFromDays_spec k).2
    have hne : ¬ ((dk ("2025-02-18") : Str) = canon (civilFromDays k)) := by
      intro he
      have h2 : canon (civilFromDays k) = canon (2025, 2, 18) := by
        rw [← he]
        decide
      have h3 := canon_inj h2
      rw [h3] at hdn
      revert hk
      rw [← hdn]
      decide
    have hov2 : findOverride allWeekendCal.overrides (canon (civilFromDays k)) = none := by
      show (if ovCE.date = canon (civilFromDays k) then some ovCE else none) = none
      have hne2 : ¬ (ovCE.date = canon (civilFromDays k)) := hne
      rw [if_neg hne2]
    obtain ⟨hs, _, hres⟩ := isWorkingDayE_canon allWeekendCal
      (civilFromDays k) hvt hov2 rfl
    rw [hres]
    have hw7 : weekdayOfDays (dayNumber (civilFromDays k).1 (civilFromDays k).2.1
        (civilFromDays k).2.2) < 7 := by
      unfold weekdayOfDays; omega
    have hwmem : weekdayOfDays (dayNumber (civilFromDays k).1 (civilFromDays k).2.1
        (civilFromDays k).2.2) ∈ allWeekendCal.weekendDays := by
      show _ ∈ [0, 1, 2, 3, 4, 5, 6]
      simp only [List.mem_cons, List.not_mem_nil, or_false]
      omega
    simp [hwmem]

/-- A successful addWorkingDays walk lands on a later canonical day such
that the walked half-open interval holds exactly n working days, the last
of which (for positive n) is the landing day itself. -/
theorem addGo_count (cal : ProjectCalendar) :
    ∀ (fuel : Nat) (t : Nat × Nat × Nat) (n : Nat) (e : Str), ValidT t →
      addGo cal fuel (canon t) n = .ok e →
      ∃ u : Nat × Nat × Nat, e = canon u ∧ ValidT u ∧
        dayNumber t.1 t.2.1 t.2.2 ≤ dayNumber u.1 u.2.1 u.2.2 ∧
        (List.range' (dayNumber t.1 t.2.1 t.2.2 + 1)
            (dayNumber u.1 u.2.1 u.2.2 - dayNumber t.1 t.2.1 t.2.2)).countP
          (fun k => decide (isWorkingDayE (canon (civilFromDays k)) cal = some true))
          = n ∧
        (0 < n → isWorkingDayE (canon u) cal = some true) := by
  intro fuel
  induction fuel with
  | zero =>
    intro t n e hv he
    cases n with
    | zero =>
      have h0 : addGo cal 0 (canon t) 0 = .ok (canon t) := rfl
      rw [h0] at he
      injection he with heq
      refine ⟨t, heq.symm, hv, le_refl _, ?_, fun hc => absurd hc (by omega)⟩
      rw [Nat.sub_self]
      rfl
    | succ m => exact absurd he (by simp [addGo])
  | succ f ih =>
    intro t n e hv he
    cases n with
    | zero =>
      have h0 : addGo cal (f + 1) (canon t) 0 = .ok (canon t) := rfl
      rw [h0] at he
      injection he with heq
      refine ⟨t, heq.symm, hv, le_refl _, ?_, fun hc => absurd hc (by omega)⟩
      rw [Nat.sub_self]
      rfl
    | succ m =>
      have hstep : addGo cal (f + 1) (canon t) (m + 1) =
          match nextDay (canon t) with
          | none => .err
          | some c2 =>
            match isWorkingDayE c2 cal with
            | none => .err
            | some w => addGo cal f c2 (if w then m else m + 1) := rfl
      rw [hstep, nextDay_canon hv] at he
      dsimp only at he
      have hv2 : ValidT (civilFromDays (dayNumber t.1 t.2.1 t.2.2 + 1)) :=
        (civilFromDays_spec _).1
      have hDN2 : dayNumber (civilFromDays (dayNumber t.1 t.2.1 t.2.2 + 1)).1
          (civilFromDays (dayNumber t.1 t.2.1 t.2.2 + 1)).2.1
          (civilFromDays (dayNumber t.1 t.2.1 t.2.2 + 1)).2.2
          = dayNumber t.1 t.2.1 t.2.2 + 1 := (civilFromDays_spec _).2
      cases hw2 : isWorkingDayE (canon (civilFromDays (dayNumber t.1 t.2.1 t.2.2 + 1)))
          cal with
      | none => rw [hw2] at he; simp at he
      | some w2 =>
        rw [hw2] at he
        dsimp only at he
        cases w2 with
        | true =>
          rw [show (if true then m else m + 1) = m from rfl] at he
          obtain ⟨u, heu, hvu, hle, hcount, hlast⟩ := ih _ m e hv2 he
          rw [hDN2] at hle hcount
          refine ⟨u, heu, hvu, by omega, ?_, fun _ => ?_⟩
          · rw [show dayNumber u.1 u.2.1 u.2.2 - dayNumber t.1 t.2.1 t.2.2
                = (dayNumber u.1 u.2.1 u.2.2 - (dayNumber t.1 t.2.1 t.2.2 + 1)) + 1
              from by omega]
            rw [List.range'_succ, List.countP_cons, hcount]
            simp [hw2]
          · cases Nat.eq_zero_or_pos m with
            | inl h0 =>
              subst h0
              have he2 : addGo cal f
                  (canon (civilFromDays (dayNumber t.1 t.2.1 t.2.2 + 1))) 0 =
                  .ok (canon (civilFromDays (dayNumber t.1 t.2.1 t.2.2 + 1))) := by
                cases f <;> rfl
              rw [he2] at he
              injection he with heq2
              have hu : u = civilFromDays (dayNumber t.1 t.2.1 t.2.2 + 1) :=
                canon_inj (heu.symm.trans heq2.symm)
              rw [hu]
              exact hw2
            | inr hpos => exact hlast hpos
        | false =>
          rw [show (if false then m else m + 1) = m + 1 from rfl] at he
          obtain ⟨u, heu, hvu, hle, hcount, hlast⟩ := ih _ (m + 1) e hv2 he
          rw [hDN2] at hle hcount
          refine ⟨u, heu, hvu, by omega, ?_, fun _ => hlast (by omega)⟩
          rw [show dayNumber u.1 u.2.1 u.2.2 - dayNumber t.1 t.2.1 t.2.2
              = (dayNumber u.1 u.2.1 u.2.2 - (dayNumber t.1 t.2.1 t.2.2 + 1)) + 1
            from by omega]
          rw [List.range'_succ, List.countP_cons, hcount]
          simp [hw2]

/-- A successful nextWorkingDay walk lands on the least working day at or
after the start. -/
theorem nwGo_spec (cal : ProjectCalendar) :
    ∀ (fuel : Nat) (t : Nat × Nat × Nat) (e : Str), ValidT t →
      nwGo cal fuel (canon t) = .ok e →
      ∃ u : Nat × Nat × Nat, e = canon u ∧ ValidT u ∧
        dayNumber t.1 t.2.1 t.2.2 ≤ dayNumber u.1 u.2.1 u.2.2 ∧
        isWorkingDayE (canon u) cal = some true ∧
        ∀ k, dayNumber t.1 t.2.1 t.2.2 ≤ k → k < dayNumber u.1 u.2.1 u.2.2 →
          isWorkingDayE (canon (civilFromDays k)) cal = some false := by
  intro fuel
  induction fuel with
  | zero =>
    intro t e hv he
    rw [nwGo.eq_1] at he
    cases hw : isWorkingDayE (canon t) cal with
    | none => rw [hw] at he; cases he
    | some b =>
      rw [hw] at he
      cases b with
      | false => dsimp only at he; cases he
      | true =>
        dsimp only at he
        injection he with heq
        refine ⟨t, heq.symm, hv, le_refl _, hw, ?_⟩
        intro k hk1 hk2
        omega
  | succ f ih =>
    intro t e hv he
    rw [nwGo.eq_2] at he
    cases hw : isWorkingDayE (canon t) cal with
    | none => rw [hw] at he; cases he
    | some b =>
      rw [hw] at he
      cases b with
      | true =>
        dsimp only at he
        injection he with heq
        refine ⟨t, heq.symm, hv, le_refl _, hw, ?_⟩
        intro k hk1 hk2
        omega
      | false =>
        dsimp only at he
        rw [nextDay_canon hv] at he
        dsimp only at he
        have hv2 : ValidT (civilFromDays (dayNumber t.1 t.2.1 t.2.2 + 1)) :=
          (civilFromDays_spec _).1
        have hDN2 : dayNumber (civilFromDays (dayNumber t.1 t.2.1 t.2.2 + 1)).1
            (civilFromDays (dayNumber t.1 t.2.1 t.2.2 + 1)).2.1
            (civilFromDays (dayNumber t.1 t.2.1 t.2.2 + 1)).2.2
            = dayNumber t.1 t.2.1 t.2.2 + 1 := (civilFromDays_spec _).2
        obtain ⟨u, heu, hvu, hle, hwu, hbet⟩ := ih _ e hv2 he
        rw [hDN2] at hle
        refine ⟨u, heu, hvu, by omega, hwu, ?_⟩
        intro k hk1 hk2
        rcases Nat.eq_or_lt_of_le hk1 with heq2 | hgt
        · rw [← heq2, civil_dayNumber hv]
          exact hw
        · refine hbet k ?_ hk2
          rw [hDN2]
          omega

/-- Fuel covering an interval holding at least n working days suffices for
the addWorkingDays walk (under UTC, where isWorkingDay is total on
canonical keys). -/
theorem addGo_term (cal : ProjectCalendar) (htz : cal.timezone = utcTz) :
    ∀ (f : Nat) (t : Nat × Nat × Nat) (n : Nat), ValidT t →
      n ≤ (List.range' (dayNumber t.1 t.2.1 t.2.2 + 1) f).countP
        (fun k => decide (isWorkingDayE (canon (civilFromDays k)) cal = some true)) →
      ∃ e, addGo cal f (canon t) n = .ok e := by
  intro f
  induction f with
  | zero =>
    intro t n hv hc
    have hn : n = 0 := by simpa using hc
    subst hn
    exact ⟨canon t, rfl⟩
  | succ f ih =>
    intro t n hv hc
    cases n with
    | zero => exact ⟨canon t, rfl⟩
    | succ m =>
      have hstep : addGo cal (f + 1) (canon t) (m + 1) =
          match nextDay (canon t) with
          | none => .err
          | some c2 =>
            match isWorkingDayE c2 cal with
            | none => .err
            | some w => addGo cal f c2 (if w then m else m + 1) := rfl
      rw [hstep, nextDay_canon hv]
      dsimp only
      have hv2 : ValidT (civilFromDays (dayNumber t.1 t.2.1 t.2.2 + 1)) :=
        (civilFromDays_spec _).1
      have hDN2 : dayNumber (civilFromDays (dayNumber t.1 t.2.1 t.2.2 + 1)).1
          (civilFromDays (dayNumber t.1 t.2.1 t.2.2 + 1)).2.1
          (civilFromDays (dayNumber t.1 t.2.1 t.2.2 + 1)).2.2
          = dayNumber t.1 t.2.1 t.2.2 + 1 := (civilFromDays_spec _).2
      obtain ⟨b, hb⟩ := isWorkingDayE_total cal _ hv2 htz
      rw [hb]
      dsimp only
      rw [List.range'_succ, List.countP_cons] at hc
      cases b with
      | true =>
        rw [show (if true then m else m + 1) = m from rfl]
        refine ih _ m hv2 ?_
        rw [hDN2]
        simp only [hb, decide_eq_true_eq] at hc
        simp at hc
        omega
      | false =>
        rw [show (if false then m else m + 1) = m + 1 from rfl]
        refine ih _ (m + 1) hv2 ?_
        rw [hDN2]
        simp only [hb] at hc
        simp at hc
        omega

/-- A working day at or after the start, within fuel reach, makes the
nextWorkingDay walk succeed (under UTC). -/
theorem nwGo_term (cal : ProjectCalendar) (htz : cal.timezone = utcTz) :
    ∀ (f : Nat) (t : Nat × Nat × Nat), ValidT t →
      ∀ k, dayNumber t.1 t.2.1 t.2.2 ≤ k → k ≤ dayNumber t.1 t.2.1 t.2.2 + f →
      isWorkingDayE (canon (civilFromDays k)) cal = some true →
      ∃ e, nwGo cal f (canon t) = .ok e := by
  intro f
  induction f with
  | zero =>
    intro t hv k hk1 hk2 hwk
    have hk : k = dayNumber t.1 t.2.1 t.2.2 := by omega
    rw [hk, civil_dayNumber hv] at hwk
    exact ⟨canon t, by rw [nwGo.eq_1, hwk]⟩
  | succ f ih =>
    intro t hv k hk1 hk2 hwk
    obtain ⟨b, hb⟩ := isWorkingDayE_total cal t hv htz
    cases b with
    | true => exact ⟨canon t, by rw [nwGo.eq_2, hb]⟩
    | false =>
      have hk : dayNumber t.1 t.2.1 t.2.2 < k := by
        rcases Nat.eq_or_lt_of_le hk1 with he | h
        · exfalso
          rw [← he, civil_dayNumber hv] at hwk
          simp [hwk] at hb
        · exact h
      have hres : ∃ e, nwGo cal f
          (canon (civilFromDays (dayNumber t.1 t.2.1 t.2.2 + 1))) = .ok e := by
        refine ih _ (civilFromDays_spec _).1 k ?_ ?_ hwk
        · rw [(civilFromDays_spec (dayNumber t.1 t.2.1 t.2.2 + 1)).2]
          omega
        · rw [(civilFromDays_spec (dayNumber t.1 t.2.1 t.2.2 + 1)).2]
          omega
      obtain ⟨e, he⟩ := hres
      refine ⟨e, ?_⟩
      rw [nwGo.eq_2, hb]
      dsimp only
      rw [nextDay_canon hv]
      dsimp only
      exact he

/-- An ISO key of a day strictly after the candidate January day is never
that candidate's key (either same-format with a different day number, or
the expanded "+"-form, which starts with a non-digit). -/
theorem toKeyUTC_ne_jan {y d a : Nat} (_hy : 1970 ≤ y) (_hd8 : 8 ≤ d) (_hd14 : d ≤ 14)
    (ha : dayNumber y 1 d < a) : ¬ (toKeyUTC a = formatDateKey y 1 d) := by
  intro hEq
  have hdnu : dayNumber (civilFromDays a).1 (civilFromDays a).2.1 (civilFromDays a).2.2
      = a := (civilFromDays_spec a).2
  unfold toKeyUTC at hEq
  dsimp only at hEq
  by_cases h9 : (civilFromDays a).1 ≤ 9999
  · rw [if_pos h9] at hEq
    obtain ⟨h1, h2, h3⟩ := format_inj hEq
    rw [h1, h2, h3] at hdnu
    omega
  · rw [if_neg h9] at hEq
    cases hp : pad4 y with
    | nil => exact absurd hp (pad4_ne_nil y)
    | cons c cs =>
      have hfd : formatDateKey y 1 d = c :: (cs ++ '-' :: (pad2 1 ++ '-' :: pad2 d)) := by
        unfold formatDateKey
        rw [hp]
        rfl
      rw [hfd] at hEq
      injection hEq with hc _
      have hdig := pad4_all_digits y
      rw [hp] at hdig
      simp only [List.all_cons, Bool.and_eq_true] at hdig
      rw [← hc] at hdig
      exact absurd hdig.1 (by decide)

/-- No Swedish holiday falls on January 8-14: the fixed holidays in January
are the 1st and the 6th, the Easter-based ones fall in late February at the
earliest, Midsummer is in June, and All Saints keys are in October or
November. -/
theorem jan_not_holiday (y d : Nat) (hy : 1970 ≤ y) (hd8 : 8 ≤ d) (hd14 : d ≤ 14)
    {hs : List Str} (hhs : swedishHolidaysE y = some hs) :
    ¬ (canon (y, 1, d) ∈ hs) := by
  obtain ⟨eDN, mid, dmid, heDN, helb, heub, hm1, hm2, hmid, hhs0⟩ :=
    swedishHolidaysE_eq y hy
  rw [hhs0] at hhs
  injection hhs with hhs
  subst hhs
  intro hmem
  have hy1000 : 1000 ≤ y := by omega
  have hcanon : canon (y, 1, d) = formatDateKey y 1 d := rfl
  have hdnC : dayNumber y 1 d ≤ daysBeforeYear y + 13 := by
    unfold dayNumber
    have h1 : daysBeforeMonth y 1 = 0 := rfl
    omega
  rw [hcanon] at hmem
  rcases List.mem_append.mp hmem with hmem1 | hmem2
  · rcases List.mem_append.mp hmem1 with hfix | heast
    · obtain ⟨md, hmd, hEq⟩ := List.mem_map.mp hfix
      simp only [List.mem_cons, List.not_mem_nil, or_false] at hmd
      rcases hmd with rfl | rfl | rfl | rfl | rfl | rfl
      · have h2 : formatDateKey y 1 1 = formatDateKey y 1 d := by
          rw [← hEq]
          unfold formatDateKey
          rw [pad4_eq_natDigits hy1000]
          rfl
        obtain ⟨_, _, h3⟩ := format_inj h2
        omega
      · have h2 : formatDateKey y 1 6 = formatDateKey y 1 d := by
          rw [← hEq]
          unfold formatDateKey
          rw [pad4_eq_natDigits hy1000]
          rfl
        obtain ⟨_, _, h3⟩ := format_inj h2
        omega
      · have h2 : formatDateKey y 5 1 = formatDateKey y 1 d := by
          rw [← hEq]
          unfold formatDateKey
          rw [pad4_eq_natDigits hy1000]
          rfl
        obtain ⟨_, h3, _⟩ := format_inj h2
        omega
      · have h2 : formatDateKey y 6 6 = formatDateKey y 1 d := by
          rw [← hEq]
          unfold formatDateKey
          rw [pad4_eq_natDigits hy1000]
          rfl
        obtain ⟨_, h3, _⟩ := format_inj h2
        omega
      · have h2 : formatDateKey y 12 25 = formatDateKey y 1 d := by
          rw [← hEq]
          unfold formatDateKey
          rw [pad4_eq_natDigits hy1000]
          rfl
        obtain ⟨_, h3, _⟩ := format_inj h2
        omega
      · have h2 : formatDateKey y 12 26 = formatDateKey y 1 d := by
          rw [← hEq]
          unfold formatDateKey
          rw [pad4_eq_natDigits hy1000]
          rfl
        obtain ⟨_, h3, _⟩ := format_inj h2
        omega
    · obtain ⟨a, hma, hEq⟩ := List.mem_map.mp heast
      have hage : daysBeforeYear y + 57 ≤ a := by
        simp only [List.mem_cons, List.not_mem_nil, or_false] at hma
        rcases hma with rfl | rfl | rfl | rfl | rfl <;> omega
      exact toKeyUTC_ne_jan hy hd8 hd14 (by omega) hEq
  · rcases List.mem_cons.mp hmem2 with hmideq | hrest
    · rw [hmid] at hmideq
      have hdbm6 : 151 ≤ daysBeforeMonth y 6 := by
        have h6 : daysBeforeMonth y 6 = ((((0 + 31) + monthLen y 2) + 31) + 30) + 31 := rfl
        have h2 : monthLen y 2 = if isLeap y then 29 else 28 := rfl
        rw [h6, h2]
        split <;> omega
      have hbnd : dayNumber y 1 d < dayNumber y 6 dmid := by
        unfold dayNumber
        have h1 : daysBeforeMonth y 1 = 0 := rfl
        omega
      exact toKeyUTC_ne_jan hy hd8 hd14 hbnd hmideq.symm
    · rcases List.mem_append.mp hrest with hoct | hnov
      · by_cases hcond : weekdayOfDays (dayNumber y 10 31) = 6
        · rw [if_pos hcond] at hoct
          have hEq := List.mem_singleton.mp hoct
          have h2 : formatDateKey y 10 31 = formatDateKey y 1 d := by
            rw [hEq]
            unfold formatDateKey
            rw [pad4_eq_natDigits hy1000]
            rfl
          obtain ⟨_, h3, _⟩ := format_inj h2
          omega
        · rw [if_neg hcond] at hoct
          cases hoct
      · obtain ⟨dN, hdN, hEq⟩ := List.mem_filterMap.mp hnov
        by_cases hcond : weekdayOfDays (dayNumber y 11 dN) = 6
        · rw [if_pos hcond] at hEq
          injection hEq with hEq
          have h2 : formatDateKey y 11 dN = formatDateKey y 1 d := by
            rw [← hEq]
            unfold formatDateKey
            rw [pad4_eq_natDigits hy1000]
            rfl
          obtain ⟨_, h3, _⟩ := format_inj h2
          omega
        · rw [if_neg hcond] at hEq
          cases hEq

/-- With no overrides and a weekday w outside the weekend set, the January
window of any year provides a working day of weekday w. -/
theorem jan_candidate_working (cal : ProjectCalendar) (htz : cal.timezone = utcTz)
    (hov : cal.overrides = []) (w : Nat) (hw7 : w < 7) (hwx : w ∉ cal.weekendDays)
    (y : Nat) (hy : 1970 ≤ y) :
    ∃ d, 8 ≤ d ∧ d ≤ 14 ∧ ValidT (y, 1, d) ∧
      isWorkingDayE (canon (y, 1, d)) cal = some true := by
  obtain ⟨d, hd8, hd14, hv, hwd⟩ := jan_window_weekday w y hw7 hy
  refine ⟨d, hd8, hd14, hv, ?_⟩
  have hovn : findOverride cal.overrides (canon (y, 1, d)) = none := by
    rw [hov]; rfl
  obtain ⟨hs, hhs, hres⟩ := isWorkingDayE_canon cal (y, 1, d) hv hovn htz
  rw [hres]
  have hnm := jan_not_holiday y d hy hd8 hd14 hhs
  have hwd2 : weekdayOfDays (dayNumber (y, 1, d).1 (y, 1, d).2.1 (y, 1, d).2.2) = w := hwd
  simp [hnm, hwd2, hwx]

/-- Adding one satisfying point beyond the covered prefix increases the
interval count. -/
theorem countP_step (pred : Nat → Bool) (a m c n : Nat) (ham : a ≤ m) (hmc : m < c)
    (hcnt : n ≤ (List.range' (a + 1) (m - a)).countP pred) (hpc : pred c = true) :
    n + 1 ≤ (List.range' (a + 1) (c - a)).countP pred := by
  have h1 : List.range' (a + 1) (m - a) ++ List.range' (a + 1 + (m - a)) (c - m)
      = List.range' (a + 1) ((m - a) + (c - m)) := by
    have h2 := List.range'_append (a + 1) (m - a) (c - m) 1
    rw [one_mul, Nat.add_comm (c - m) (m - a)] at h2
    exact h2
  rw [show c - a = (m - a) + (c - m) from by omega, ← h1, List.countP_append]
  have hcmem : c ∈ List.range' (a + 1 + (m - a)) (c - m) := by
    rw [List.mem_range'_1]
    omega
  have hpos : 0 < (List.range' (a + 1 + (m - a)) (c - m)).countP pred := by
    rw [List.countP_pos_iff]
    exact ⟨c, hcmem, hpc⟩
  omega

theorem count_chain (cal : ProjectCalendar) (htz : cal.timezone = utcTz)
    (hov : cal.overrides = []) (w : Nat) (hw7 : w < 7) (hwx : w ∉ cal.weekendDays) :
    ∀ (n y0 a : Nat), 1970 ≤ y0 → a < daysBeforeYear (y0 + 1) →
      ∃ m, a ≤ m ∧ m < daysBeforeYear (y0 + n + 1) ∧
        n ≤ (List.range' (a + 1) (m - a)).countP
          (fun k => decide (isWorkingDayE (canon (civilFromDays k)) cal = some true)) := by
  intro n
  induction n with
  | zero =>
    intro y0 a hy0 ha
    exact ⟨a, le_refl _, ha, Nat.zero_le _⟩
  | succ n ih =>
    intro y0 a hy0 ha
    obtain ⟨m, ham, hmlt, hcnt⟩ := ih y0 a hy0 ha
    obtain ⟨d, hd8, hd14, hv, hwork⟩ := jan_candidate_working cal htz hov w hw7 hwx
      (y0 + n + 1) (by omega)
    have hcb := dayNumber_bounds hv
    have hmc : m < dayNumber (y0 + n + 1) 1 d := by
      have h1 : daysBeforeYear (y0 + n + 1) ≤ dayNumber (y0 + n + 1) 1 d := hcb.1
      omega
    have hciv := civil_dayNumber hv
    dsimp only at hciv
    refine ⟨dayNumber (y0 + n + 1) 1 d, by omega, hcb.2, ?_⟩
    refine countP_step _ a m _ n ham hmc hcnt ?_
    show decide (isWorkingDayE (canon (civilFromDays (dayNumber (y0 + n + 1) 1 d))) cal
      = some true) = true
    refine decide_eq_true ?_
    rw [hciv]
    exact hwork
/-- C10 amended: termination of the two calendar walks, corrected. For
addWorkingDays the right condition counts working days: a successful run
from a valid date lands on a day u with exactly n working days in
(start, u] (ending on a working day when n is positive), and conversely
(under the UTC offset model, in which isWorkingDay is total on canonical
keys) fuel reaching any interval with at least n working days suffices.
nextWorkingDay terminates exactly on the least working day at or after the
date. An all-weekend calendar whose overrides mark no working day makes
both loops spin at every fuel. If weekendDays omits some weekday and there
are no overrides, both walks terminate for every input, a working day being
found in the January 8-14 window of each following year. -/
theorem claim_C10_amended (cal : ProjectCalendar) (t : Nat × Nat × Nat) (hv : ValidT t) :
    (∀ (fuel n : Nat) (e : Str), addWorkingDaysF fuel (canon t) (n : Int) cal = .ok e →
      ∃ u : Nat × Nat × Nat, e = canon u ∧ ValidT u ∧
        dayNumber t.1 t.2.1 t.2.2 ≤ dayNumber u.1 u.2.1 u.2.2 ∧
        (List.range' (dayNumber t.1 t.2.1 t.2.2 + 1)
            (dayNumber u.1 u.2.1 u.2.2 - dayNumber t.1 t.2.1 t.2.2)).countP
          (fun k => decide (isWorkingDayE (canon (civilFromDays k)) cal = some true))
          = n ∧
        (0 < n → isWorkingDayE (canon u) cal = some true))
    ∧ (cal.timezone = utcTz → ∀ f n : Nat,
        n ≤ (List.range' (dayNumber t.1 t.2.1 t.2.2 + 1) f).countP
          (fun k => decide (isWorkingDayE (canon (civilFromDays k)) cal = some true)) →
        ∃ e, addWorkingDaysF f (canon t) (n : Int) cal = .ok e)
    ∧ (∀ (fuel : Nat) (e : Str), nextWorkingDayF fuel (canon t) cal = .ok e →
      ∃ u : Nat × Nat × Nat, e = canon u ∧ ValidT u ∧
        dayNumber t.1 t.2.1 t.2.2 ≤ dayNumber u.1 u.2.1 u.2.2 ∧
        isWorkingDayE (canon u) cal = some true ∧
        ∀ k, dayNumber t.1 t.2.1 t.2.2 ≤ k → k < dayNumber u.1 u.2.1 u.2.2 →
          isWorkingDayE (canon (civilFromDays k)) cal = some false)
    ∧ (cal.timezone = utcTz → ∀ f k, dayNumber t.1 t.2.1 t.2.2 ≤ k →
        k ≤ dayNumber t.1 t.2.1 t.2.2 + f →
        isWorkingDayE (canon (civilFromDays k)) cal = some true →
        ∃ e, nextWorkingDayF f (canon t) cal = .ok e)
    ∧ (cal.timezone = utcTz → (∀ d, d < 7 → d ∈ cal.weekendDays) →
        (∀ o ∈ cal.overrides, o.isWorkingDay = false) →
        (∀ fuel n : Nat, addWorkingDaysF fuel (canon t) ((n : Int) + 1) cal = .spin)
        ∧ (∀ fuel, nextWorkingDayF fuel (canon t) cal = .spin))
    ∧ (cal.timezone = utcTz → cal.overrides = [] →
        (∃ w, w < 7 ∧ w ∉ cal.weekendDays) →
        (∀ n : Nat, ∃ fuel e, addWorkingDaysF fuel (canon t) (n : Int) cal = .ok e)
        ∧ (∃ fuel e, nextWorkingDayF fuel (canon t) cal = .ok e)) := by
  refine ⟨?_, ?_, ?_, ?_, ?_, ?_⟩
  · intro fuel n e h
    unfold addWorkingDaysF at h
    have hn0 : ¬ ((n : Int) < 0) := by omega
    rw [if_neg hn0, show ((n : Int)).toNat = n from by omega] at h
    exact addGo_count cal fuel t n e hv h
  · intro htz f n hc
    obtain ⟨e, he⟩ := addGo_term cal htz f t n hv hc
    refine ⟨e, ?_⟩
    unfold addWorkingDaysF
    have hn0 : ¬ ((n : Int) < 0) := by omega
    rw [if_neg hn0, show ((n : Int)).toNat = n from by omega]
    exact he
  · intro fuel e h
    exact nwGo_spec cal fuel t e hv h
  · intro htz f k hk1 hk2 hwk
    exact nwGo_term cal htz f t hv k hk1 hk2 hwk
  · intro htz hall hovnw
    constructor
    · intro fuel n
      unfold addWorkingDaysF
      have hn0 : ¬ ((n : Int) + 1 < 0) := by omega
      rw [if_neg hn0, show ((n : Int) + 1).toNat = n + 1 from by omega]
      refine addGo_spin_all cal fuel t n hv ?_
      intro k hk
      exact isWorkingDayE_all_weekend cal htz hall hovnw _ (civilFromDays_spec k).1
    · intro fuel
      refine nwGo_spin_all cal fuel t hv ?_
      intro k hk
      exact isWorkingDayE_all_weekend cal htz hall hovnw _ (civilFromDays_spec k).1
  · intro htz hovr hex
    obtain ⟨w, hw7, hwx⟩ := hex
    have ha : dayNumber t.1 t.2.1 t.2.2 < daysBeforeYear (t.1 + 1) :=
      (dayNumber_bounds_t hv).2
    constructor
    · intro n
      obtain ⟨m, ham, hmlt, hcnt⟩ := count_chain cal htz hovr w hw7 hwx n t.1
        (dayNumber t.1 t.2.1 t.2.2) hv.1 ha
      obtain ⟨e, he⟩ := addGo_term cal htz (m - dayNumber t.1 t.2.1 t.2.2) t n hv hcnt
      refine ⟨m - dayNumber t.1 t.2.1 t.2.2, e, ?_⟩
      unfold addWorkingDaysF
      have hn0 : ¬ ((n : Int) < 0) := by omega
      rw [if_neg hn0, show ((n : Int)).toNat = n from by omega]
      exact he
    · obtain ⟨m, ham, hmlt, hcnt⟩ := count_chain cal htz hovr w hw7 hwx 1 t.1
        (dayNumber t.1 t.2.1 t.2.2) hv.1 ha
      have hpos : 0 < (List.range' (dayNumber t.1 t.2.1 t.2.2 + 1)
          (m - dayNumber t.1 t.2.1 t.2.2)).countP
          (fun k => decide (isWorkingDayE (canon (civilFromDays k)) cal = some true)) := by
        omega
      rw [List.countP_pos_iff] at hpos
      obtain ⟨k, hkmem, hkp⟩ := hpos
      rw [List.mem_range'_1] at hkmem
      have hkw : isWorkingDayE (canon (civilFromDays k)) cal = some true :=
        of_decide_eq_true hkp
      obtain ⟨e, he⟩ := nwGo_term cal htz (m - dayNumber t.1 t.2.1 t.2.2) t hv k
        (by omega) (by omega) hkw
      exact ⟨m - dayNumber t.1 t.2.1 t.2.2, e, he⟩

/-- Witness for C10: the working-day-reaching direction at Monday
2025-02-17 on the default Swedish calendar, which is itself a working day,
so zero fuel suffices for nextWorkingDay. -/
theorem claim_C10_witness :
    ∃ e, nextWorkingDayF 0 (canon (2025, 2, 17)) (swedishCalendar utcTz) = .ok e :=
  (claim_C10_amended (swedishCalendar utcTz) (2025, 2, 17) (by decide)).2.2.2.1 rfl 0
    (dayNumber 2025 2 17) (by decide) (by decide) (by decide)

end Boon
